import Mathlib

/-!
# Verification of the rbn-parser core

A shallow embedding of the core of the `rbn-parser` repository (an RBN
telnet-feed spot parser, filter, statistics and bounded storage service)
together with proofs about it.

Conventions of the embedding:

* Rust strings are modelled as `List Char`; the sources only deal with
  ASCII data (the wire format is an ASCII line protocol).
* Rust `f64` frequencies are modelled as exact rationals `ℚ`; the parsed
  frequency literals are built with `mkRat`.  The `as u32` cast of a
  non-negative value is truncation, i.e. `q.num.toNat / q.den`.
* Machine integers are modelled as `Nat` / `Int` with the explicit range
  checks that the Rust `str::parse::<iN/uN>` calls perform.
* `nom` parsers `&str -> IResult<&str, T>` are modelled as
  `List Char → Option (List Char × T)` (remaining input and value).
* Fallible operations return `Option` / `Except`.
-/

namespace RBN

/-! ## ASCII character helpers

These mirror Rust's `char::to_ascii_lowercase`, `to_ascii_uppercase`,
`is_ascii_alphanumeric`, `is_ascii_digit`, the character classes used by
`nom`'s `space0/space1` (space and tab) and `multispace1` (space, tab, CR,
LF), and the whitespace trimmed by `str::trim` (for ASCII input).
-/

/-- Rust `char::to_ascii_lowercase`: maps `A`..`Z` to `a`..`z`, leaves
every other character unchanged. -/
def toLowerA (c : Char) : Char :=
  if 65 ≤ c.toNat ∧ c.toNat ≤ 90 then Char.ofNat (c.toNat + 32) else c

/-- Rust `char::to_ascii_uppercase`: maps `a`..`z` to `A`..`Z`, leaves
every other character unchanged. -/
def toUpperA (c : Char) : Char :=
  if 97 ≤ c.toNat ∧ c.toNat ≤ 122 then Char.ofNat (c.toNat - 32) else c

/-- Rust `char::is_ascii_alphanumeric`. -/
def isAlnumA (c : Char) : Bool :=
  decide ((48 ≤ c.toNat ∧ c.toNat ≤ 57) ∨ (65 ≤ c.toNat ∧ c.toNat ≤ 90) ∨
    (97 ≤ c.toNat ∧ c.toNat ≤ 122))

/-- Rust `char::is_ascii_digit`, also the digit class of `nom::digit1`. -/
def isDigitA (c : Char) : Bool := decide (48 ≤ c.toNat ∧ c.toNat ≤ 57)

/-- The character class of `nom::character::complete::space0/space1`:
space and tab. -/
def isNomSpace (c : Char) : Bool := c = ' ' || c = '\t'

/-- The character class of `nom::character::complete::multispace1`:
space, tab, carriage return, line feed. -/
def isNomMultispace (c : Char) : Bool := c = ' ' || c = '\t' || c = '\r' || c = '\n'

/-- The whitespace removed by `str::trim` on ASCII input
(`char::is_whitespace` restricted to ASCII). -/
def isRustWs (c : Char) : Bool :=
  c = ' ' || c = '\t' || c = '\n' || c = '\r' || c = '\x0b' || c = '\x0c'

/-- Case-insensitive ASCII character comparison, as used by
`nom::bytes::complete::tag_no_case`. -/
def lowerEq (a b : Char) : Bool := toLowerA a == toLowerA b

theorem char_toNat_ofNat {n : Nat} (h : n < 55296) : (Char.ofNat n).toNat = n := by
  unfold Char.ofNat Char.ofNatAux
  rw [dif_pos (Or.inl h)]
  simp [Char.toNat, UInt32.toNat, BitVec.toNat_ofNatLt]

theorem char_eq_of_toNat_eq {a b : Char} (h : a.toNat = b.toNat) : a = b :=
  Char.eq_of_val_eq (UInt32.eq_of_val_eq (Fin.eq_of_val_eq h))

theorem toLowerA_toNat (c : Char) :
    (toLowerA c).toNat =
      if 65 ≤ c.toNat ∧ c.toNat ≤ 90 then c.toNat + 32 else c.toNat := by
  unfold toLowerA
  split
  · next h => rw [char_toNat_ofNat (by omega)]
  · rfl

theorem toUpperA_toNat (c : Char) :
    (toUpperA c).toNat =
      if 97 ≤ c.toNat ∧ c.toNat ≤ 122 then c.toNat - 32 else c.toNat := by
  unfold toUpperA
  split
  · next h => rw [char_toNat_ofNat (by omega)]
  · rfl

/-- A character that ASCII-case-insensitively equals an alphanumeric
character is itself alphanumeric. -/
theorem alnum_of_lowerEq {b c : Char} (h : lowerEq b c = true)
    (hb : isAlnumA b = true) : isAlnumA c = true := by
  have hv : (toLowerA b).toNat = (toLowerA c).toNat := by
    simp only [lowerEq, beq_iff_eq] at h
    rw [h]
  rw [toLowerA_toNat, toLowerA_toNat] at hv
  simp only [isAlnumA, decide_eq_true_eq] at hb ⊢
  split at hv <;> split at hv <;> omega

/-- `toLowerA` fixes characters that are not ASCII uppercase letters. -/
theorem toLowerA_eq_self {c : Char} (h : ¬(65 ≤ c.toNat ∧ c.toNat ≤ 90)) :
    toLowerA c = c := by
  unfold toLowerA
  rw [if_neg h]

/-- `toUpperA ∘ toUpperA = toUpperA`: uppercasing is idempotent. -/
theorem toUpperA_idem (c : Char) : toUpperA (toUpperA c) = toUpperA c := by
  apply char_eq_of_toNat_eq
  rw [toUpperA_toNat, toUpperA_toNat]
  by_cases h : 97 ≤ c.toNat ∧ c.toNat ≤ 122
  · rw [if_pos h, if_neg (by omega)]
  · rw [if_neg h, if_neg h]

/-! ## Wildcard pattern matching (`src/filter.rs`)

`matches_wildcard` and `validate_wildcard_pattern` from `src/filter.rs`,
and the field-level pattern-list check used by `SpotFilter::matches`.
-/

/-- `str::strip_prefix('*')`. -/
def stripLeadStar : List Char → Option (List Char)
  | '*' :: rest => some rest
  | _ => none

/-- `str::strip_suffix('*')`. -/
def stripTrailStar (l : List Char) : Option (List Char) :=
  if l.getLast? = some '*' then some l.dropLast else none

/-- `matches_wildcard` (src/filter.rs): uppercase both strings, then
`*SUFFIX` means ends-with, `PREFIX*` means starts-with, otherwise exact
equality. -/
def matches_wildcard (pattern value : List Char) : Bool :=
  let p := pattern.map toUpperA
  let v := value.map toUpperA
  match stripLeadStar p with
  | some sfx => sfx.isSuffixOf v
  | none =>
    match stripTrailStar p with
    | some pre => pre.isPrefixOf v
    | none => p == v

/-- `validate_wildcard_pattern` (src/filter.rs), with `Ok`/`Err` modelled
as `true`/`false` (the error message strings are irrelevant here). -/
def validate_wildcard_pattern (pattern : List Char) : Bool :=
  let wc := pattern.count '*'
  if wc > 1 then false
  else if wc = 1 ∧ ¬(pattern.head? = some '*') ∧ ¬(pattern.getLast? = some '*') then false
  else true

/-- `PatternList::matches_any` (src/filter.rs). -/
def matches_any (patterns : List (List Char)) (value : List Char) : Bool :=
  patterns.any (fun p => matches_wildcard p value)

/-- The dx_call / spotter field check inside `SpotFilter::matches`
(src/filter.rs): an absent list or an empty list is no constraint,
otherwise at least one pattern must match. -/
def pattern_field_passes (field : Option (List (List Char))) (value : List Char) : Bool :=
  match field with
  | none => true
  | some pats => pats.isEmpty || matches_any pats value

/-! ## Spot data model (`src/spot.rs`) -/

/-- `Mode` (src/spot.rs). -/
inductive Mode where
  | Cw | Rtty | Ft8 | Ft4 | Psk31 | Unknown
deriving DecidableEq, Repr

/-- `SpotType` (src/spot.rs). -/
inductive SpotType where
  | Cq | NcdxfBeacon | Beacon | Other
deriving DecidableEq, Repr

/-- `CwSpot` (src/spot.rs).  `chrono::NaiveTime` carries only
hour/minute here (the parser always sets seconds to 0); `f64` is
modelled as `ℚ`. -/
structure CwSpot where
  spotter : List Char
  frequency_khz : ℚ
  dx_call : List Char
  mode : Mode
  snr_db : Int
  wpm : Nat
  spot_type : SpotType
  time : Nat × Nat
deriving DecidableEq, Repr

/-- The `frequency_khz as u32` cast in `CwSpot::band`: truncation toward
zero of a (non-negative) rational; negative values clamp to 0 exactly as
the Rust saturating float-to-int cast does. -/
def freqFloorU32 (q : ℚ) : Nat := q.num.toNat / q.den

/-- The band match in `CwSpot::band` (src/spot.rs), keyed by integer kHz. -/
def bandOfNat (k : Nat) : Option String :=
  if 135 ≤ k ∧ k ≤ 138 then some "2200m"
  else if 472 ≤ k ∧ k ≤ 479 then some "630m"
  else if 1800 ≤ k ∧ k ≤ 2000 then some "160m"
  else if 3500 ≤ k ∧ k ≤ 4000 then some "80m"
  else if 5330 ≤ k ∧ k ≤ 5410 then some "60m"
  else if 7000 ≤ k ∧ k ≤ 7300 then some "40m"
  else if 10100 ≤ k ∧ k ≤ 10150 then some "30m"
  else if 14000 ≤ k ∧ k ≤ 14350 then some "20m"
  else if 18068 ≤ k ∧ k ≤ 18168 then some "17m"
  else if 21000 ≤ k ∧ k ≤ 21450 then some "15m"
  else if 24890 ≤ k ∧ k ≤ 24990 then some "12m"
  else if 28000 ≤ k ∧ k ≤ 29700 then some "10m"
  else if 50000 ≤ k ∧ k ≤ 54000 then some "6m"
  else if 144000 ≤ k ∧ k ≤ 148000 then some "2m"
  else none

/-- `CwSpot::band` (src/spot.rs). -/
def CwSpot.band (s : CwSpot) : Option String := bandOfNat (freqFloorU32 s.frequency_khz)

/-- The band table of spec §4.1, modelled from the spec's words as a list
of inclusive kHz ranges with labels, for comparison with the code's
`band` above. -/
def bandTable : List (Nat × Nat × String) :=
  [(135, 138, "2200m"), (472, 479, "630m"), (1800, 2000, "160m"),
   (3500, 4000, "80m"), (5330, 5410, "60m"), (7000, 7300, "40m"),
   (10100, 10150, "30m"), (14000, 14350, "20m"), (18068, 18168, "17m"),
   (21000, 21450, "15m"), (24890, 24990, "12m"), (28000, 29700, "10m"),
   (50000, 54000, "6m"), (144000, 148000, "2m")]

/-- Spec-side lookup: the label of the table row whose inclusive range
contains `k`. -/
def bandTableLookup (k : Nat) : Option String :=
  (bandTable.find? (fun r => decide (r.1 ≤ k ∧ k ≤ r.2.1))).map (fun r => r.2.2)

/-! ## Statistics: top-spotter list (`src/stats.rs`)

`SpotStats::summary` collects the spotter tally `HashMap<String, u64>`
into a vector (in the map's unspecified iteration order), sorts it with
the stable `Vec::sort_by(|a, b| b.1.cmp(&a.1))` — descending by count
only — and truncates to 10.  A stable sort's output is uniquely
determined by the comparator and the input order, so the stable
`insertionSort` with the same comparator is an exact model; the input
list stands for one possible hash-map iteration order.
-/

/-- The top-spotters computation of `SpotStats::summary` (src/stats.rs),
as a function of the tally entries in hash-map iteration order. -/
def summary_top_spotters (entries : List (String × Nat)) : List (String × Nat) :=
  (List.insertionSort (fun a b => b.2 ≤ a.2) entries).take 10

/-! ## Parser (`src/parser.rs`)

Each `nom` sub-parser of `src/parser.rs` is embedded as a function
`List Char → Option (List Char × α)` returning the unconsumed input and
the parsed value.  `take_while1`, `tag_no_case`, `char`, `space0/1`,
`multispace1` and `digit1` are modelled directly; `alt` is the ordered
match below; `map_res` range checks of `str::parse::<i32>/<u16>` are the
explicit bound checks.
-/

/-- The parser type: remaining input and value on success. -/
abbrev P (α : Type) : Type := List Char → Option (List Char × α)

/-- `nom::bytes::complete::take_while1`. -/
def takeWhile1 (p : Char → Bool) : P (List Char) := fun s =>
  if (s.takeWhile p).isEmpty then none else some (s.dropWhile p, s.takeWhile p)

/-- `nom::character::complete::char`. -/
def charP (c : Char) : P Unit := fun s =>
  match s with
  | d :: rest => if d = c then some (rest, ()) else none
  | [] => none

/-- ASCII case-insensitive starts-with, the comparison of `tag_no_case`. -/
def ciStarts : List Char → List Char → Bool
  | [], _ => true
  | _ :: _, [] => false
  | c :: cs, d :: ds => lowerEq c d && ciStarts cs ds

/-- `nom::bytes::complete::tag_no_case`. -/
def tagNoCase (t : List Char) : P Unit := fun s =>
  if ciStarts t s then some (s.drop t.length, ()) else none

/-- `nom::character::complete::space0` (always succeeds). -/
def space0 : P Unit := fun s => some (s.dropWhile isNomSpace, ())

/-- Sequencing of parsers: on success feed the remaining input and value
to the continuation (the `?` operator threading of `parse_spot` and the
tuple sequences inside the `nom` combinators). -/
def pbind {α β : Type} (p : Option (List Char × α))
    (f : List Char → α → Option (List Char × β)) : Option (List Char × β) :=
  match p with
  | none => none
  | some (s, a) => f s a

/-- `is_callsign_char` (src/parser.rs). -/
def isCallsignChar (c : Char) : Bool := isAlnumA c || c = '/' || c = '-' || c = '#'

/-- The numeric value of a digit string, as computed by `str::parse`. -/
def natOfDigits (l : List Char) : Nat := l.foldl (fun a c => a * 10 + (c.toNat - 48)) 0

/-- `ParseError` (src/parser.rs); the message payloads are dropped, only
the category matters. -/
inductive ParseError where
  | InvalidFormat | InvalidFrequency | InvalidTime | MissingField | Incomplete
deriving DecidableEq, Repr

/-- `parse_dx_de_prefix` (src/parser.rs): `DX`, whitespace, `de`,
whitespace, all case-insensitive. -/
def parse_dx_de : P Unit := fun s =>
  pbind (tagNoCase ['D', 'X'] s) fun s1 _ =>
  pbind (takeWhile1 isNomMultispace s1) fun s2 _ =>
  pbind (tagNoCase ['d', 'e'] s2) fun s3 _ =>
  pbind (takeWhile1 isNomMultispace s3) fun s4 _ =>
  some (s4, ())

/-- `parse_callsign` (src/parser.rs). -/
def parse_callsign : P (List Char) := takeWhile1 isCallsignChar

/-- `parse_spotter` (src/parser.rs): callsign, `:`, optional spaces. -/
def parse_spotter : P (List Char) := fun s =>
  pbind (parse_callsign s) fun s1 cs =>
  pbind (charP ':' s1) fun s2 _ =>
  pbind (space0 s2) fun s3 _ =>
  some (s3, cs)

/-- `parse_frequency` (src/parser.rs): `digit1 ('.' digit1)?` parsed as a
real number (here: the exact rational value). The optional fractional
group backtracks as `nom::opt` does. -/
def parse_frequency : P ℚ := fun s =>
  pbind (takeWhile1 isDigitA s) fun s1 d =>
  match pbind (charP '.' s1) (fun s2 _ => takeWhile1 isDigitA s2) with
  | none => some (s1, mkRat (natOfDigits d) 1)
  | some (s3, f) =>
      some (s3, mkRat (natOfDigits d * 10 ^ f.length + natOfDigits f) (10 ^ f.length))

/-- `parse_mode` (src/parser.rs): ordered alternatives. -/
def parse_mode : P Mode := fun s =>
  match tagNoCase ['C', 'W'] s with
  | some (r, _) => some (r, Mode.Cw)
  | none =>
  match tagNoCase ['R', 'T', 'T', 'Y'] s with
  | some (r, _) => some (r, Mode.Rtty)
  | none =>
  match tagNoCase ['F', 'T', '8'] s with
  | some (r, _) => some (r, Mode.Ft8)
  | none =>
  match tagNoCase ['F', 'T', '4'] s with
  | some (r, _) => some (r, Mode.Ft4)
  | none =>
  match tagNoCase ['P', 'S', 'K', '3', '1'] s with
  | some (r, _) => some (r, Mode.Psk31)
  | none => none

/-- The signed value recognized by `parse_snr`. -/
def snrVal (neg : Bool) (d : List Char) : Int :=
  if neg then -(natOfDigits d : Int) else (natOfDigits d : Int)

/-- The part of `parse_snr` after the optional sign: digits (with the
`i32::from_str` range check of `map_res`), spaces, `dB`. -/
def parse_snr_tail (neg : Bool) (s1 : List Char) : Option (List Char × Int) :=
  match takeWhile1 isDigitA s1 with
  | none => none
  | some (s2, d) =>
    if snrVal neg d < -2147483648 ∨ 2147483647 < snrVal neg d then none
    else
      match takeWhile1 isNomSpace s2 with
      | none => none
      | some (s3, _) =>
        match tagNoCase ['d', 'B'] s3 with
        | none => none
        | some (s4, _) => some (s4, snrVal neg d)

/-- `parse_snr` (src/parser.rs): optional `-`, then digits, spaces,
`dB`. -/
def parse_snr : P Int := fun s =>
  match charP '-' s with
  | some (s1, _) => parse_snr_tail true s1
  | none => parse_snr_tail false s

/-- `parse_wpm` (src/parser.rs): digits (with the `u16::from_str` range
check), spaces, `WPM`. -/
def parse_wpm : P Nat := fun s =>
  match takeWhile1 isDigitA s with
  | none => none
  | some (s1, d) =>
    if 65535 < natOfDigits d then none
    else
      match takeWhile1 isNomSpace s1 with
      | none => none
      | some (s2, _) =>
        match tagNoCase ['W', 'P', 'M'] s2 with
        | none => none
        | some (s3, _) => some (s3, natOfDigits d)

/-- `parse_spot_type` (src/parser.rs): `NCDXF B` / `BEACON` / `CQ` tried
in order, then the catch-all `take_while1(alphanumeric or space)`. -/
def parse_spot_type : P SpotType := fun s =>
  match (pbind (tagNoCase ['N', 'C', 'D', 'X', 'F'] s) fun s1 _ =>
         pbind (takeWhile1 isNomSpace s1) fun s2 _ =>
         pbind (tagNoCase ['B'] s2) fun s3 _ =>
         some (s3, ())) with
  | some (r, _) => some (r, SpotType.NcdxfBeacon)
  | none =>
  match tagNoCase ['B', 'E', 'A', 'C', 'O', 'N'] s with
  | some (r, _) => some (r, SpotType.Beacon)
  | none =>
  match tagNoCase ['C', 'Q'] s with
  | some (r, _) => some (r, SpotType.Cq)
  | none =>
  match takeWhile1 (fun c => isAlnumA c || c = ' ') s with
  | some (r, _) => some (r, SpotType.Other)
  | none => none

/-- `parse_time_full` (src/parser.rs): digits then `Z`; the `map_res`
closure requires exactly 4 digits and a valid 24h hour/minute. -/
def parse_time_full : P (Nat × Nat) := fun s =>
  match takeWhile1 isDigitA s with
  | none => none
  | some (s1, d) =>
    match tagNoCase ['Z'] s1 with
    | none => none
    | some (s2, _) =>
      if d.length = 4 then
        if natOfDigits (d.take 2) ≤ 23 ∧ natOfDigits (d.drop 2) ≤ 59 then
          some (s2, (natOfDigits (d.take 2), natOfDigits (d.drop 2)))
        else none
      else none

/-- The field sequence inside `parse_spot` (src/parser.rs, the closure on
the trimmed input). -/
def parse_spot_inner : P CwSpot := fun s0 =>
  pbind (parse_dx_de s0) fun s1 _ =>
  pbind (parse_spotter s1) fun s2 sp =>
  pbind (space0 s2) fun s3 _ =>
  pbind (parse_frequency s3) fun s4 fq =>
  pbind (takeWhile1 isNomSpace s4) fun s5 _ =>
  pbind (parse_callsign s5) fun s6 dx =>
  pbind (takeWhile1 isNomSpace s6) fun s7 _ =>
  pbind (parse_mode s7) fun s8 md =>
  pbind (takeWhile1 isNomSpace s8) fun s9 _ =>
  pbind (parse_snr s9) fun s10 sn =>
  pbind (takeWhile1 isNomSpace s10) fun s11 _ =>
  pbind (parse_wpm s11) fun s12 wp =>
  pbind (takeWhile1 isNomSpace s12) fun s13 _ =>
  pbind (parse_spot_type s13) fun s14 ty =>
  pbind (space0 s14) fun s15 _ =>
  pbind (parse_time_full s15) fun s16 tm =>
  some (s16, { spotter := sp, frequency_khz := fq, dx_call := dx, mode := md,
               snr_db := sn, wpm := wp, spot_type := ty, time := tm })

/-- `str::trim_start` on ASCII input. -/
def trimStartL (s : List Char) : List Char := s.dropWhile isRustWs

/-- `str::trim_end` on ASCII input. -/
def trimEndL (s : List Char) : List Char := (s.reverse.dropWhile isRustWs).reverse

/-- `str::trim` on ASCII input. -/
def trimL (s : List Char) : List Char := trimEndL (trimStartL s)

/-- `parse_spot` (src/parser.rs): trim, run the field sequence, discard
the leftover on success; every `nom` error is wrapped as
`ParseError::InvalidFormat`. -/
def parse_spot (input : List Char) : Except ParseError CwSpot :=
  match parse_spot_inner (trimL input) with
  | some (_, spot) => Except.ok spot
  | none => Except.error ParseError.InvalidFormat

/-- `looks_like_spot` (src/parser.rs): trimmed length above 20 and one of
the three literal prefixes. -/
def looks_like_spot (line : List Char) : Bool :=
  let t := trimL line
  decide (20 < t.length) &&
    (List.isPrefixOf ['D', 'X', ' ', 'd', 'e', ' '] t ||
     List.isPrefixOf ['D', 'X', ' ', 'D', 'E', ' '] t ||
     List.isPrefixOf ['d', 'x', ' ', 'd', 'e', ' '] t)

/-- Whether `parse_spot` succeeds (Boolean view of the `Result`). -/
def parse_ok (line : List Char) : Bool :=
  match parse_spot line with
  | Except.ok _ => true
  | Except.error _ => false

/-! ## Bounded filter storage (`src/storage.rs`)

`FilterStorage` / `SpotStorage` with `store_spot`, the global-eviction
loop and the per-filter cap loop.  The stored element type `σ` and its
size measure `sz : σ → Nat` are parameters: `CwSpot::json_size` is a
fixed function of the (immutable) spot, and the spec states that the
exact serialized-size measure is not part of the external contract.
The queue `spots` list is oldest-first; `VecDeque::push_back` appends,
`pop_front` removes the head.  Filter names and the `SpotFilter`
predicates play no role in `store_spot` and are omitted;
`store_spot` is called with an in-range filter index (the Rust indexing
panics otherwise), expressed as a hypothesis in the theorems.
-/

/-- `FilterStorage` (src/storage.rs): one bounded queue. -/
structure FilterStorage (σ : Type) where
  max_kept_entries : Nat
  spots : List (Nat × σ)
  next_seq : Nat
  overflow_count : Nat
  current_size_bytes : Nat

/-- `FilterStorage::len`. -/
def FilterStorage.len {σ : Type} (fs : FilterStorage σ) : Nat := fs.spots.length

/-- `FilterStorage::latest_seq`: seq of the back element, 0 if empty. -/
def FilterStorage.latest_seq {σ : Type} (fs : FilterStorage σ) : Nat :=
  ((fs.spots.getLast?).map Prod.fst).getD 0

/-- `FilterStorage::push`: assign the next seq, append at the tail, add
the size. Returns the size and the new state. -/
def FilterStorage.push {σ : Type} (fs : FilterStorage σ) (sz : σ → Nat) (spot : σ) :
    FilterStorage σ :=
  { fs with spots := fs.spots ++ [(fs.next_seq, spot)],
            next_seq := fs.next_seq + 1,
            current_size_bytes := fs.current_size_bytes + sz spot }

/-- `FilterStorage::pop_oldest`: remove the front element, subtract its
size, bump `overflow_count`; returns the removed size. -/
def FilterStorage.pop_oldest {σ : Type} (fs : FilterStorage σ) (sz : σ → Nat) :
    Option (Nat × FilterStorage σ) :=
  match fs.spots with
  | [] => none
  | e :: rest =>
      some (sz e.2,
        { fs with spots := rest,
                  current_size_bytes := fs.current_size_bytes - sz e.2,
                  overflow_count := fs.overflow_count + 1 })

/-- `FilterStorage::get_spots_since`. -/
def FilterStorage.get_spots_since {σ : Type} (fs : FilterStorage σ) (since : Nat) :
    List (Nat × σ) :=
  fs.spots.filter (fun e => since < e.1)

/-- `SpotStorage` (src/storage.rs). -/
structure SpotStorage (σ : Type) where
  global_max_size : Nat
  filters : List (FilterStorage σ)
  total_size_bytes : Nat
  global_evictions : Nat

/-- The scan of `evict_from_largest_filter`: `max_len` starts at 0 and
is updated on strictly greater lengths, so the first queue of maximal
nonzero length wins. -/
def largest_scan {σ : Type} :
    List (FilterStorage σ) → Nat → Nat → Option Nat → Option Nat
  | [], _, _, best => best
  | fs :: rest, i, maxLen, best =>
    if maxLen < fs.spots.length then largest_scan rest (i + 1) fs.spots.length (some i)
    else largest_scan rest (i + 1) maxLen best

/-- Index selection of `evict_from_largest_filter` (src/storage.rs). -/
def largest_idx {σ : Type} (filters : List (FilterStorage σ)) : Option Nat :=
  largest_scan filters 0 0 none

/-- Total number of stored entries, the termination measure of the
global-eviction loop. -/
def entry_count {σ : Type} (st : SpotStorage σ) : Nat :=
  (st.filters.map (fun fs => fs.spots.length)).sum

/-- `SpotStorage::evict_from_largest_filter` (src/storage.rs): `none`
models `return false` (no mutation happens in the Rust code on that
path). -/
def evict_from_largest {σ : Type} (sz : σ → Nat) (st : SpotStorage σ) :
    Option (SpotStorage σ) :=
  match largest_idx st.filters with
  | none => none
  | some idx =>
    match st.filters.get? idx with
    | none => none
    | some fs =>
      match fs.pop_oldest sz with
      | none => none
      | some (rsz, fs1) =>
          some { st with filters := st.filters.set idx fs1,
                         total_size_bytes := st.total_size_bytes - rsz }

theorem pop_oldest_length {σ : Type} {fs fs1 : FilterStorage σ} {sz : σ → Nat} {rsz : Nat}
    (h : fs.pop_oldest sz = some (rsz, fs1)) : fs1.spots.length + 1 = fs.spots.length := by
  unfold FilterStorage.pop_oldest at h
  match hs : fs.spots with
  | [] => rw [hs] at h; exact absurd h (by simp)
  | e :: rest =>
      rw [hs] at h
      simp only [Option.some.injEq, Prod.mk.injEq] at h
      rw [← h.2]
      simp [hs]

theorem map_sum_set {α : Type} (f : α → Nat) :
    ∀ (l : List α) (i : Nat) (x y : α), l.get? i = some x →
      (((l.set i y).map f).sum + f x = (l.map f).sum + f y)
  | [], i, x, y, h => by simp at h
  | a :: t, 0, x, y, h => by
      simp only [List.get?] at h
      cases h
      simp [Nat.add_comm, Nat.add_left_comm]
  | a :: t, i + 1, x, y, h => by
      simp only [List.get?] at h
      have ih := map_sum_set f t i x y h
      simp only [List.set, List.map, List.sum_cons]
      omega

theorem largest_scan_spec {σ : Type} (Pr : Nat → Prop) :
    ∀ (l : List (FilterStorage σ)) (i m : Nat) (best : Option Nat),
      (∀ j, best = some j → Pr j) →
      (∀ k (hk : k < l.length), m < (l.get ⟨k, hk⟩).spots.length → Pr (i + k)) →
      ∀ j, largest_scan l i m best = some j → Pr j
  | [], _, _, best, hbest, _, j, hj => hbest j hj
  | fs :: rest, i, m, best, hbest, hupd, j, hj => by
      unfold largest_scan at hj
      split at hj
      · next hlt =>
          refine largest_scan_spec Pr rest (i + 1) fs.spots.length (some i) ?_ ?_ j hj
          · intro j' hj'
            cases hj'
            exact hupd 0 (by simp) (by simpa using hlt)
          · intro k hk hklen
            have := hupd (k + 1) (by simpa using Nat.succ_lt_succ hk)
              (by simpa using Nat.lt_trans hlt hklen)
            simpa [Nat.add_assoc, Nat.add_comm, Nat.add_left_comm] using this
      · next hge =>
          refine largest_scan_spec Pr rest (i + 1) m best hbest ?_ j hj
          intro k hk hklen
          have := hupd (k + 1) (by simpa using Nat.succ_lt_succ hk) (by simpa using hklen)
          simpa [Nat.add_assoc, Nat.add_comm, Nat.add_left_comm] using this

theorem evict_entry_count {σ : Type} {sz : σ → Nat} {st st1 : SpotStorage σ}
    (h : evict_from_largest sz st = some st1) : entry_count st1 + 1 = entry_count st := by
  unfold evict_from_largest at h
  split at h
  · exact absurd h (by simp)
  next idx hidx =>
  split at h
  · exact absurd h (by simp)
  next fs hget =>
  split at h
  · exact absurd h (by simp)
  next rsz fs1 hpop =>
  simp only [Option.some.injEq] at h
  have hlen := pop_oldest_length hpop
  have hsum := map_sum_set (fun fs => fs.spots.length) st.filters idx fs fs1 hget
  dsimp only at hsum
  rw [← h]
  unfold entry_count
  dsimp only
  omega

/-- The `while` loop enforcing the global byte budget inside
`SpotStorage::store_spot` (src/storage.rs): evict from the largest
filter while `total + S` exceeds the budget, counting global evictions;
returns the state and whether the store may proceed (`false` models the
early `return`). -/
def global_evict_loop {σ : Type} (sz : σ → Nat) (S : Nat) (st : SpotStorage σ) :
    SpotStorage σ × Bool :=
  if st.global_max_size < st.total_size_bytes + S then
    match h : evict_from_largest sz st with
    | none => (st, false)
    | some st1 =>
        global_evict_loop sz S { st1 with global_evictions := st1.global_evictions + 1 }
  else (st, true)
termination_by entry_count st
decreasing_by
  have := evict_entry_count h
  simp only [entry_count] at *
  omega

/-- The `while` loop enforcing the per-filter entry cap inside
`SpotStorage::store_spot`: pop the oldest while `len ≥ max_kept_entries`
(stopping if the queue empties); returns the queue and the freed bytes
(which `store_spot` subtracts from the global total). -/
def per_filter_evict {σ : Type} (sz : σ → Nat) (fs : FilterStorage σ) :
    FilterStorage σ × Nat :=
  if fs.max_kept_entries ≤ fs.spots.length then
    match h : fs.pop_oldest sz with
    | none => (fs, 0)
    | some (rsz, fs1) =>
        let r := per_filter_evict sz fs1
        (r.1, rsz + r.2)
  else (fs, 0)
termination_by fs.spots.length
decreasing_by
  have := pop_oldest_length h
  omega

/-- `SpotStorage::store_spot` (src/storage.rs): global preemption, then
the per-filter cap, then push. An out-of-range index is modelled as a
no-op (the Rust indexing would panic; all theorems restrict to in-range
indices). -/
def store_spot {σ : Type} (sz : σ → Nat) (st : SpotStorage σ) (i : Nat) (spot : σ) :
    SpotStorage σ :=
  match global_evict_loop sz (sz spot) st with
  | (st1, false) => st1
  | (st1, true) =>
    match st1.filters.get? i with
    | none => st1
    | some fs =>
      let pr := per_filter_evict sz fs
      let fs2 := pr.1.push sz spot
      { st1 with filters := st1.filters.set i fs2,
                 total_size_bytes := st1.total_size_bytes - pr.2 + sz spot }

/-- `SpotStorage::new` (src/storage.rs): empty queues with the given
effective caps (a filter's `max_kept_entries` or the storage default),
`next_seq` starting at 1, zero counters. -/
def mk_storage {σ : Type} (G : Nat) (caps : List Nat) : SpotStorage σ :=
  { global_max_size := G,
    filters := caps.map (fun c =>
      { max_kept_entries := c, spots := [], next_seq := 1,
        overflow_count := 0, current_size_bytes := 0 }),
    total_size_bytes := 0,
    global_evictions := 0 }

/-- A sequence of sequential `store_spot` calls. -/
def run_stores {σ : Type} (sz : σ → Nat) (st : SpotStorage σ) (ops : List (Nat × σ)) :
    SpotStorage σ :=
  ops.foldl (fun s op => store_spot sz s op.1 op.2) st

/-! ## Wildcard matching: helper lemmas -/

theorem toUpperA_eq_self {c : Char} (h : ¬(97 ≤ c.toNat ∧ c.toNat ≤ 122)) :
    toUpperA c = c := by
  unfold toUpperA
  rw [if_neg h]

theorem toUpperA_star_iff {c : Char} : toUpperA c = '*' ↔ c = '*' := by
  constructor
  · intro h
    have ht := congrArg Char.toNat h
    rw [toUpperA_toNat] at ht
    have h42 : ('*' : Char).toNat = 42 := by decide
    rw [h42] at ht
    split at ht
    · omega
    · exact char_eq_of_toNat_eq (by rw [ht, h42])
  · intro h
    rw [h]
    decide

theorem map_toUpperA_star {l : List Char} (h : '*' ∉ l) :
    ∀ c ∈ l.map toUpperA, c ≠ '*' := by
  intro c hc hstar
  rcases List.mem_map.mp hc with ⟨d, hd, rfl⟩
  exact h (by rwa [toUpperA_star_iff.mp hstar] at hd)

theorem two_le_count_of_get :
    ∀ (l : List Char) (i j : Nat) (hi : i < l.length) (hj : j < l.length), i < j →
      l.get ⟨i, hi⟩ = '*' → l.get ⟨j, hj⟩ = '*' → 2 ≤ l.count '*'
  | [], i, j, hi, _, _, _, _ => absurd hi (by simp)
  | c :: t, 0, j, hi, hj, hij, h1, h2 => by
      have hj' : j - 1 < t.length := by simp at hj; omega
      have h2' : t.get ⟨j - 1, hj'⟩ = '*' := by
        have : (c :: t).get ⟨j, hj⟩ = t.get ⟨j - 1, hj'⟩ := by
          rcases j with _ | j
          · omega
          · simp
        rwa [this] at h2
      have hmem : '*' ∈ t := by rw [← h2']; exact List.get_mem t _ _
      have hpos : 1 ≤ t.count '*' := List.count_pos_iff.mpr hmem
      simp only [List.get] at h1
      subst h1
      rw [List.count_cons]
      simp only [beq_self_eq_true, if_true]
      omega
  | c :: t, i + 1, j, hi, hj, hij, h1, h2 => by
      rcases j with _ | j
      · omega
      · have hi' : i < t.length := by simp at hi; omega
        have hj' : j < t.length := by simp at hj; omega
        have := two_le_count_of_get t i j hi' hj' (by omega) (by simpa using h1) (by simpa using h2)
        rw [List.count_cons]
        omega

theorem head?_star_iff {l : List Char} :
    l.head? = some '*' ↔ ∃ h0 : 0 < l.length, l.get ⟨0, h0⟩ = '*' := by
  cases l with
  | nil => simp
  | cons c t => simp [List.head?]

theorem getLast?_star_iff {l : List Char} :
    l.getLast? = some '*' ↔
      ∃ hl : l.length - 1 < l.length, l.get ⟨l.length - 1, hl⟩ = '*' := by
  rw [List.getLast?_eq_getElem?]
  constructor
  · intro h
    rcases List.getElem?_eq_some.mp h with ⟨hl, hg⟩
    exact ⟨hl, hg⟩
  · intro ⟨hl, hg⟩
    rw [List.getElem?_eq_getElem hl]
    simpa using hg

/-- C6 helper: the semantics of `matches_wildcard` for a leading-star
pattern. -/
theorem stripLeadStar_cons_ne {x : Char} (xs : List Char) (hx : x ≠ '*') :
    stripLeadStar (x :: xs) = none := by
  unfold stripLeadStar
  split
  · next heq =>
      injection heq with h1 _
      first
      | exact absurd h1 hx
      | exact absurd h1.symm hx
  · rfl

theorem matches_wildcard_lead_star (S v : List Char) :
    matches_wildcard ('*' :: S) v = true ↔ S.map toUpperA <:+ v.map toUpperA := by
  have hm : ('*' :: S).map toUpperA = '*' :: S.map toUpperA := by
    simp [toUpperA_star_iff.mpr rfl]
  simp only [matches_wildcard, hm, stripLeadStar]
  exact List.isSuffixOf_iff_suffix

/-- C6 helper: the semantics of `matches_wildcard` for a trailing-star
pattern whose stem has no star. -/
theorem matches_wildcard_trail_star (Pp v : List Char) (h : '*' ∉ Pp) :
    matches_wildcard (Pp ++ ['*']) v = true ↔ Pp.map toUpperA <+: v.map toUpperA := by
  have hm : (Pp ++ ['*']).map toUpperA = Pp.map toUpperA ++ ['*'] := by
    simp [toUpperA_star_iff.mpr rfl]
  cases hP : Pp.map toUpperA with
  | nil =>
      have hPe : Pp = [] := by cases Pp <;> simp_all
      subst hPe
      constructor
      · intro _
        simpa using List.nil_prefix
      · intro _
        simpa using (matches_wildcard_lead_star [] v).mpr (by simp)
  | cons c cs =>
      have hc : c ≠ '*' := by
        apply map_toUpperA_star h
        rw [hP]; exact List.mem_cons_self c cs
      have hlead : stripLeadStar ((c :: cs) ++ ['*']) = none := by
        rw [List.cons_append]
        exact stripLeadStar_cons_ne _ hc
      have htrail : stripTrailStar ((c :: cs) ++ ['*']) = some (c :: cs) := by
        unfold stripTrailStar
        rw [List.getLast?_concat, if_pos rfl, List.dropLast_concat]
      simp only [matches_wildcard, hm, hP, hlead, htrail]
      rw [← hP]
      exact List.isPrefixOf_iff_prefix

/-- C6 helper: the semantics of `matches_wildcard` for a star-free
pattern. -/
theorem matches_wildcard_exact (p v : List Char) (h : '*' ∉ p) :
    matches_wildcard p v = true ↔ p.map toUpperA = v.map toUpperA := by
  have hstar := map_toUpperA_star h
  have hlead : stripLeadStar (p.map toUpperA) = none := by
    cases hP : p.map toUpperA with
    | nil => rfl
    | cons c cs =>
        have hc : c ≠ '*' := hstar c (by rw [hP]; exact List.mem_cons_self c cs)
        exact stripLeadStar_cons_ne _ hc
  have htrail : stripTrailStar (p.map toUpperA) = none := by
    unfold stripTrailStar
    rw [if_neg]
    intro hlast
    rcases getLast?_star_iff.mp hlast with ⟨hl, hg⟩
    exact hstar _ (List.get_mem _ _ _) hg
  simp only [matches_wildcard, hlead, htrail]
  exact beq_iff_eq

/-- C6 helper: `matches_wildcard` is invariant under pre-uppercasing both
arguments. -/
theorem matches_wildcard_ci (p v : List Char) :
    matches_wildcard (p.map toUpperA) (v.map toUpperA) = matches_wildcard p v := by
  unfold matches_wildcard
  rw [List.map_map, List.map_map]
  have hcomp : toUpperA ∘ toUpperA = toUpperA := funext toUpperA_idem
  rw [hcomp]

/-- C6 helper: exact characterization of `validate_wildcard_pattern`. -/
theorem validate_wildcard_iff (p : List Char) :
    validate_wildcard_pattern p = true ↔
      (p.count '*' ≤ 1 ∧
       ∀ i (hi : i < p.length), p.get ⟨i, hi⟩ = '*' → i = 0 ∨ i = p.length - 1) := by
  unfold validate_wildcard_pattern
  by_cases h2 : p.count '*' > 1
  · rw [if_pos h2]
    apply iff_of_false (by simp)
    intro ⟨hc, _⟩
    omega
  · rw [if_neg h2]
    by_cases hmid : p.count '*' = 1 ∧ ¬(p.head? = some '*') ∧ ¬(p.getLast? = some '*')
    · rw [if_pos hmid]
      apply iff_of_false (by simp)
      intro ⟨_, hpos⟩
      have hpos1 : 0 < p.count '*' := by omega
      rcases List.count_pos_iff.mp hpos1 with hmem
      rcases List.mem_iff_get.mp hmem with ⟨⟨i, hi⟩, hgi⟩
      rcases hpos i hi hgi with h0 | hlast
      · exact hmid.2.1 (head?_star_iff.mpr ⟨by omega, by subst h0; exact hgi⟩)
      · refine hmid.2.2 (getLast?_star_iff.mpr ⟨by omega, ?_⟩)
        subst hlast
        exact hgi
    · rw [if_neg hmid]
      apply iff_of_true rfl
      refine ⟨by omega, ?_⟩
      intro i hi hgi
      by_cases hcnt : p.count '*' = 1
      · by_contra hni
        push_neg at hni
        rcases not_and_or.mp hmid with h | h
        · exact h hcnt
        rcases not_and_or.mp h with h | h
        · push_neg at h
          rcases head?_star_iff.mp h with ⟨h0, hg0⟩
          have : 2 ≤ p.count '*' :=
            two_le_count_of_get p 0 i h0 hi (by omega) hg0 hgi
          omega
        · push_neg at h
          rcases getLast?_star_iff.mp h with ⟨hl, hgl⟩
          have : 2 ≤ p.count '*' :=
            two_le_count_of_get p i (p.length - 1) hi hl (by omega) hgi hgl
          omega
      · have : 0 < p.count '*' :=
          List.count_pos_iff.mpr (by rw [← hgi]; exact List.get_mem _ _ _)
        omega

/-- C6: wildcard matching is ASCII case-insensitive; `*S` matches exactly
the values whose uppercasing ends with the uppercasing of `S`; `P*`
(star-free `P`) matches exactly the values whose uppercasing starts with
the uppercasing of `P`; a star-free pattern matches exactly the values
equal to it up to ASCII case; and validation accepts a pattern iff it
has at most one `*` and any `*` is the first or last character (hence
patterns with an internal `*` or more than one `*` are rejected). -/
theorem C6_wildcard_semantics :
    (∀ p v : List Char,
      matches_wildcard (p.map toUpperA) (v.map toUpperA) = matches_wildcard p v)
    ∧ (∀ S v : List Char,
      matches_wildcard ('*' :: S) v = true ↔ S.map toUpperA <:+ v.map toUpperA)
    ∧ (∀ Pp v : List Char, '*' ∉ Pp →
      (matches_wildcard (Pp ++ ['*']) v = true ↔ Pp.map toUpperA <+: v.map toUpperA))
    ∧ (∀ p v : List Char, '*' ∉ p →
      (matches_wildcard p v = true ↔ p.map toUpperA = v.map toUpperA))
    ∧ (∀ p : List Char,
      validate_wildcard_pattern p = true ↔
        (p.count '*' ≤ 1 ∧
         ∀ i (hi : i < p.length), p.get ⟨i, hi⟩ = '*' → i = 0 ∨ i = p.length - 1)) :=
  ⟨matches_wildcard_ci, matches_wildcard_lead_star, matches_wildcard_trail_star,
   matches_wildcard_exact, validate_wildcard_iff⟩

/-- C6 witness: the components of `C6_wildcard_semantics` instantiated at
concrete patterns and values, with the star-freeness hypotheses
discharged. -/
theorem C6_wildcard_semantics_witness :
    (matches_wildcard "W6*".toList "w6jsv".toList = true)
    ∧ ('*' ∉ "W6".toList)
    ∧ (matches_wildcard "*JSV".toList "W6JSV".toList = true)
    ∧ (matches_wildcard "W6JSV".toList "w6jsv".toList = true)
    ∧ (validate_wildcard_pattern "*W6*".toList = false)
    ∧ (validate_wildcard_pattern "W*6".toList = false) := by
  refine ⟨?_, by decide, ?_, ?_, by decide, by decide⟩
  · exact (C6_wildcard_semantics.2.2.1 "W6".toList "w6jsv".toList (by decide)).mpr (by decide)
  · exact (C6_wildcard_semantics.2.1 "JSV".toList "W6JSV".toList).mpr (by decide)
  · exact (C6_wildcard_semantics.2.2.2.1 "W6JSV".toList "w6jsv".toList (by decide)).mpr (by decide)

/-- C10: the pattern `*` is accepted by validation and matches every
value; the empty pattern is accepted and matches exactly the empty
value; a pattern list containing `*` makes the dx_call/spotter field
check pass for every value. -/
theorem C10_star_and_empty_patterns :
    (validate_wildcard_pattern ['*'] = true)
    ∧ (∀ v : List Char, matches_wildcard ['*'] v = true)
    ∧ (validate_wildcard_pattern [] = true)
    ∧ (∀ v : List Char, matches_wildcard [] v = true ↔ v = [])
    ∧ (∀ (pats : List (List Char)) (v : List Char), ['*'] ∈ pats →
        pattern_field_passes (some pats) v = true) := by
  refine ⟨by decide, ?_, by decide, ?_, ?_⟩
  · intro v
    have h := (matches_wildcard_lead_star [] v).mpr (by simp)
    simpa using h
  · intro v
    rw [matches_wildcard_exact [] v (by simp)]
    constructor
    · intro h
      have h' : List.map toUpperA v = [] := by simpa using h.symm
      exact List.map_eq_nil_iff.mp h'
    · intro h; subst h; rfl
  · intro pats v hmem
    have hstar : matches_wildcard ['*'] v = true := by
      have h := (matches_wildcard_lead_star [] v).mpr (by simp)
      simpa using h
    have hany : pats.any (fun p => matches_wildcard p v) = true :=
      List.any_eq_true.mpr ⟨['*'], hmem, hstar⟩
    simp only [pattern_field_passes, matches_any, hany, Bool.or_true]

/-- C10 witness: the last component of `C10_star_and_empty_patterns`
applied at a concrete pattern list and value, and the empty-pattern
equivalence at the empty value. -/
theorem C10_star_and_empty_patterns_witness :
    pattern_field_passes (some [['W', '6'], ['*']]) "ANY".toList = true ∧
      (matches_wildcard [] [] = true ↔ ([] : List Char) = []) :=
  ⟨C10_star_and_empty_patterns.2.2.2.2 [['W', '6'], ['*']] "ANY".toList (by decide),
   C10_star_and_empty_patterns.2.2.2.1 []⟩

/-! ## Band classification (C7) -/

/-- First-match lookup over a range table (spec §4.1 semantics): the
label of the first row whose inclusive range contains `k`. -/
def lookupTable : List (Nat × Nat × String) → Nat → Option String
  | [], _ => none
  | r :: rest, k => if r.1 ≤ k ∧ k ≤ r.2.1 then some r.2.2 else lookupTable rest k

/-- The code's if-chain agrees with the first-match lookup over the
spec's table. -/
theorem bandOfNat_eq_lookup (k : Nat) : bandOfNat k = lookupTable bandTable k := rfl

/-- For a non-negative rational, the Rust `as u32` truncation equals the
integer floor. -/
theorem freqFloorU32_eq_floor (q : ℚ) (hq : 0 ≤ q) : freqFloorU32 q = (⌊q⌋).toNat := by
  unfold freqFloorU32
  rw [Rat.floor_def]
  have hnum : 0 ≤ q.num := Rat.num_nonneg.2 hq
  obtain ⟨m, hm⟩ := Int.eq_ofNat_of_zero_le hnum
  rw [hm]
  simp only [Int.toNat_ofNat]
  rfl

/-- A spot with the given frequency (the other fields are arbitrary but
fixed), for concrete band examples. -/
def sample_spot (q : ℚ) : CwSpot :=
  { spotter := ['T'], frequency_khz := q, dx_call := ['W'], mode := Mode.Cw,
    snr_db := 10, wpm := 20, spot_type := SpotType.Cq, time := (12, 0) }

/-- C7: for every spot with positive frequency, `band()` equals the
first-match lookup of the spec's inclusive band table at the integer
floor of `frequency_khz`; in particular 7000.0 kHz yields `40m` and
6999.9 kHz yields no band. -/
theorem C7_band_by_floor :
    (∀ s : CwSpot, 0 < s.frequency_khz →
      s.band = lookupTable bandTable (⌊s.frequency_khz⌋).toNat)
    ∧ (sample_spot (mkRat 7000 1)).band = some "40m"
    ∧ (sample_spot (mkRat 69999 10)).band = none := by
  refine ⟨fun s hs => ?_, by decide, by decide⟩
  unfold CwSpot.band
  rw [freqFloorU32_eq_floor _ (le_of_lt hs), bandOfNat_eq_lookup]

/-- C7 witness: the floor characterization applied to the concrete
7000.0 kHz spot. -/
theorem C7_band_by_floor_witness :
    0 < (sample_spot (mkRat 7000 1)).frequency_khz
    ∧ (sample_spot (mkRat 7000 1)).band =
        lookupTable bandTable (⌊(sample_spot (mkRat 7000 1)).frequency_khz⌋).toNat :=
  ⟨by decide, C7_band_by_floor.1 _ (by decide)⟩

/-! ## Statistics top-spotters (C8) -/

/-- C8 counterexample: with two spotters of equal count, the summary
keeps the hash-map iteration order (the sort is stable and compares
counts only); it does **not** order ties by name ascending, so for the
iteration order `B` before `A` the output is not `[A, B]`. -/
theorem C8_tie_order_counterexample :
    summary_top_spotters [("B", 5), ("A", 5)] = [("B", 5), ("A", 5)]
    ∧ summary_top_spotters [("B", 5), ("A", 5)] ≠ [("A", 5), ("B", 5)] := by
  constructor
  · decide
  · decide

/-- C8 (amended): `summary()`'s top-spotter list is the 10 highest
counts in descending count order — every kept entry comes from the
tally, at most 10 are kept, counts are non-increasing, and every
dropped entry's count is at most every kept entry's count.  The order
of equal counts is the hash-map iteration order, not name order. -/
theorem C8_top_spotters_order (entries : List (String × Nat)) :
    (summary_top_spotters entries).Sorted (fun a b => b.2 ≤ a.2)
    ∧ (summary_top_spotters entries).length = min 10 entries.length
    ∧ (∀ x ∈ summary_top_spotters entries, x ∈ entries)
    ∧ (∀ x ∈ summary_top_spotters entries, ∀ y ∈ entries,
        y ∉ summary_top_spotters entries → y.2 ≤ x.2) := by
  have htotal : IsTotal (String × Nat) (fun a b => b.2 ≤ a.2) :=
    ⟨fun a b => Nat.le_total b.2 a.2⟩
  have htrans : IsTrans (String × Nat) (fun a b => b.2 ≤ a.2) :=
    ⟨fun a b c hab hbc => le_trans hbc hab⟩
  have hsorted : (List.insertionSort (fun a b : String × Nat => b.2 ≤ a.2) entries).Sorted
      (fun a b => b.2 ≤ a.2) := List.sorted_insertionSort _ entries
  have hperm := List.perm_insertionSort (fun a b : String × Nat => b.2 ≤ a.2) entries
  refine ⟨?_, ?_, ?_, ?_⟩
  · exact List.Pairwise.sublist (List.take_sublist 10 _) hsorted
  · rw [summary_top_spotters, List.length_take, hperm.length_eq]
  · intro x hx
    exact hperm.mem_iff.mp ((List.take_sublist 10 _).mem hx)
  · intro x hx y hy hyout
    have hysort : y ∈ List.insertionSort (fun a b : String × Nat => b.2 ≤ a.2) entries :=
      hperm.mem_iff.mpr hy
    have hydrop : y ∈ (List.insertionSort (fun a b : String × Nat => b.2 ≤ a.2) entries).drop 10 := by
      rcases (List.mem_append.mp (by
        rw [List.take_append_drop]
        exact hysort :
          y ∈ (List.insertionSort (fun a b : String × Nat => b.2 ≤ a.2) entries).take 10 ++
            (List.insertionSort (fun a b : String × Nat => b.2 ≤ a.2) entries).drop 10)) with
        hin | hin
      · exact absurd hin hyout
      · exact hin
    exact hsorted.rel_of_mem_take_of_mem_drop hx hydrop

/-- A possible spotter tally (one hash-map iteration order) with 11
distinct counts, used to instantiate `C8_top_spotters_order`. -/
def c8input : List (String × Nat) :=
  [("A", 12), ("B", 11), ("C", 10), ("D", 9), ("E", 8), ("F", 7),
   ("G", 6), ("H", 5), ("I", 4), ("J", 3), ("K", 2)]

/-- C8 witness: the amended ordering theorem applied at a concrete
11-entry tally; the 11th spotter is dropped and its count is at most
the count of a kept spotter. -/
theorem C8_top_spotters_order_witness :
    (summary_top_spotters c8input).Sorted (fun a b => b.2 ≤ a.2)
    ∧ ("K", 2).2 ≤ ("A", 12).2 := by
  have h := C8_top_spotters_order c8input
  exact ⟨h.1, h.2.2.2 ("A", 12) (by decide) ("K", 2) (by decide) (by decide)⟩

/-! ## Parser: concrete evaluations (C2 counterexample, C3, C4) -/

instance {e a : Type} [DecidableEq e] [DecidableEq a] : DecidableEq (Except e a) := fun x y =>
  match x, y with
  | Except.ok u, Except.ok v =>
    match decEq u v with
    | isTrue h => isTrue (by rw [h])
    | isFalse h => isFalse (fun hh => h (by injection hh))
  | Except.ok _, Except.error _ => isFalse (fun hh => Except.noConfusion hh)
  | Except.error _, Except.ok _ => isFalse (fun hh => Except.noConfusion hh)
  | Except.error u, Except.error v =>
    match decEq u v with
    | isTrue h => isTrue (by rw [h])
    | isFalse h => isFalse (fun hh => h (by injection hh))

/-- C2 counterexample: `parse_spot` accepts this line (`tag_no_case`
matches the mixed-case `Dx de` prefix) but the pre-filter rejects it,
because `looks_like_spot` only checks the three literal casings
`DX de `, `DX DE `, `dx de `.  So "`parse_spot` accepts `L` implies
`looks_like_spot L`" is false as stated. -/
theorem C2_prefilter_counterexample :
    parse_ok "Dx de TEST-1:  7018.3  W1AW  CW  19 dB  18 WPM  CQ  2259Z".toList = true
    ∧ looks_like_spot "Dx de TEST-1:  7018.3  W1AW  CW  19 dB  18 WPM  CQ  2259Z".toList
        = false := by
  constructor
  · decide
  · decide

/-- C3: a well-formed line whose spot-type field is the unrecognized
word `DX` followed by spaces and a valid time fails to parse: the
`OTHER` catch-all `take_while1(alphanumeric or space)` greedily
consumes `DX 2259` including the time digits, leaving only `Z` where
the four-digit time is required.  (With a tab separator the catch-all
stops early and the same spot type parses as `OTHER`, confirming the
greedy munch is what breaks the space-separated format.) -/
theorem C3_other_spot_type_eval :
    parse_spot "DX de TEST-#: 7018.3 W1AW CW 10 dB 20 WPM DX 2259Z".toList =
      Except.error ParseError.InvalidFormat
    ∧ (parse_spot "DX de TEST-3:  7018.3  W1AW  CW  10 dB  20 WPM  FOO\t2259Z".toList).toOption.map
        (fun s => s.spot_type) = some SpotType.Other := by
  constructor
  · decide
  · decide

/-- C4 counterexample: a line that is well-formed except for its time
field (hour 24) produces `InvalidFormat`, not `InvalidTime` — the
`match` at the end of `parse_spot` wraps every `nom` error as
`ParseError::InvalidFormat`, and `InvalidTime` is never constructed. -/
theorem C4_invalid_time_counterexample :
    parse_spot "DX de TEST-#: 7018.3 W1AW CW 10 dB 20 WPM CQ 2460Z".toList =
      Except.error ParseError.InvalidFormat
    ∧ ParseError.InvalidFormat ≠ ParseError.InvalidTime := by
  constructor
  · decide
  · decide

/-- C4 (amended): lines whose time field is malformed (wrong digit
count, hour above 23, or minute above 59) fail to parse, but the
failure is tagged `InvalidFormat` — the only failure category
`parse_spot` ever returns. -/
theorem C4_failures_are_invalid_format :
    (∀ (s : List Char) (e : ParseError), parse_spot s = Except.error e →
       e = ParseError.InvalidFormat)
    ∧ parse_spot "DX de TEST-#: 7018.3 W1AW CW 10 dB 20 WPM CQ 2460Z".toList =
        Except.error ParseError.InvalidFormat
    ∧ parse_spot "DX de TEST-#: 7018.3 W1AW CW 10 dB 20 WPM CQ 1260Z".toList =
        Except.error ParseError.InvalidFormat
    ∧ parse_spot "DX de TEST-#: 7018.3 W1AW CW 10 dB 20 WPM CQ 125Z".toList =
        Except.error ParseError.InvalidFormat := by
  refine ⟨?_, by decide, by decide, by decide⟩
  intro s e h
  unfold parse_spot at h
  split at h
  · exact absurd h (by simp)
  · injection h with h1
    exact h1.symm

/-- C4 witness: the invalid-format characterization applied to the
concrete bad-hour line. -/
theorem C4_failures_are_invalid_format_witness :
    parse_spot "DX de TEST-#: 7018.3 W1AW CW 10 dB 20 WPM CQ 2460Z".toList =
      Except.error ParseError.InvalidFormat
    ∧ ParseError.InvalidFormat = ParseError.InvalidFormat :=
  ⟨by decide,
   C4_failures_are_invalid_format.1
     "DX de TEST-#: 7018.3 W1AW CW 10 dB 20 WPM CQ 2460Z".toList
     ParseError.InvalidFormat (by decide)⟩

/-! ## Parser: structural lemmas

Destructuring and input-consumption lemmas for the embedded `nom`
combinators, used for the pre-filter claim (C2) and the
leftover-discarding claim (C9).
-/

theorem takeWhile1_eq_some {p : Char → Bool} {s r v : List Char}
    (h : takeWhile1 p s = some (r, v)) :
    v = s.takeWhile p ∧ r = s.dropWhile p ∧ v ≠ [] := by
  unfold takeWhile1 at h
  split at h
  · exact absurd h (by simp)
  · next hne =>
      injection h with h1
      injection h1 with hr hv
      refine ⟨hv.symm, hr.symm, ?_⟩
      intro hnil
      rw [hv, hnil] at hne
      exact hne rfl

theorem takeWhile_add_dropWhile_length (p : Char → Bool) (s : List Char) :
    (s.takeWhile p).length + (s.dropWhile p).length = s.length := by
  conv_rhs => rw [← List.takeWhile_append_dropWhile (p := p) (l := s)]
  rw [List.length_append]

theorem takeWhile1_consumes {p : Char → Bool} {s r v : List Char}
    (h : takeWhile1 p s = some (r, v)) :
    r.length + v.length = s.length ∧ 1 ≤ v.length := by
  obtain ⟨hv, hr, hne⟩ := takeWhile1_eq_some h
  have hlen := takeWhile_add_dropWhile_length p s
  rw [← hv, ← hr] at hlen
  have : 0 < v.length := List.length_pos.mpr hne
  omega

theorem ciStarts_length_le : ∀ {t s : List Char}, ciStarts t s = true → t.length ≤ s.length
  | [], _, _ => by simp
  | c :: cs, [], h => by exact absurd h (by simp [ciStarts])
  | c :: cs, d :: ds, h => by
      simp only [ciStarts, Bool.and_eq_true] at h
      have := ciStarts_length_le h.2
      simp only [List.length_cons]
      omega

theorem tagNoCase_eq_some {t s r : List Char} {v : Unit}
    (h : tagNoCase t s = some (r, v)) :
    ciStarts t s = true ∧ r = s.drop t.length := by
  unfold tagNoCase at h
  split at h
  · next hci =>
      injection h with h1
      injection h1 with hr _
      exact ⟨hci, hr.symm⟩
  · exact absurd h (by simp)

theorem tagNoCase_consumes {t s r : List Char} {v : Unit}
    (h : tagNoCase t s = some (r, v)) : r.length + t.length = s.length := by
  obtain ⟨hci, hr⟩ := tagNoCase_eq_some h
  have hle := ciStarts_length_le hci
  rw [hr, List.length_drop]
  omega

theorem charP_eq_some {c : Char} {s r : List Char} {v : Unit}
    (h : charP c s = some (r, v)) : s = c :: r := by
  unfold charP at h
  match s with
  | [] => exact absurd h (by simp)
  | d :: rest =>
      simp only at h
      split at h
      · next hd =>
          injection h with h1
          injection h1 with hr _
          rw [hd, hr]
      · exact absurd h (by simp)

theorem space0_eq {s r : List Char} {v : Unit} (h : space0 s = some (r, v)) :
    r = s.dropWhile isNomSpace := by
  unfold space0 at h
  injection h with h1
  injection h1 with hr _
  exact hr.symm

theorem space0_consumes {s r : List Char} {v : Unit} (h : space0 s = some (r, v)) :
    r.length ≤ s.length := by
  rw [space0_eq h]
  have := takeWhile_add_dropWhile_length isNomSpace s
  omega

theorem pbind_eq_some {α β : Type} {p : Option (List Char × α)}
    {f : List Char → α → Option (List Char × β)} {r : List Char} {v : β}
    (h : pbind p f = some (r, v)) :
    ∃ s1 a, p = some (s1, a) ∧ f s1 a = some (r, v) := by
  unfold pbind at h
  match p with
  | none => exact absurd h (by simp)
  | some (s1, a) => exact ⟨s1, a, rfl, h⟩

theorem parse_dx_de_consumes {s r : List Char} {v : Unit}
    (h : parse_dx_de s = some (r, v)) : r.length + 6 ≤ s.length := by
  unfold parse_dx_de at h
  obtain ⟨s1, _, h1, h⟩ := pbind_eq_some h
  obtain ⟨s2, _, h2, h⟩ := pbind_eq_some h
  obtain ⟨s3, _, h3, h⟩ := pbind_eq_some h
  obtain ⟨s4, _, h4, h⟩ := pbind_eq_some h
  injection h with h5
  injection h5 with hr _
  have c1 := tagNoCase_consumes h1
  have c2 := takeWhile1_consumes h2
  have c3 := tagNoCase_consumes h3
  have c4 := takeWhile1_consumes h4
  simp only [List.length_cons, List.length_nil] at c1 c3
  rw [← hr]
  omega

theorem parse_spotter_consumes {s r cs : List Char}
    (h : parse_spotter s = some (r, cs)) : r.length + 2 ≤ s.length := by
  unfold parse_spotter at h
  obtain ⟨s1, _, h1, h⟩ := pbind_eq_some h
  obtain ⟨s2, _, h2, h⟩ := pbind_eq_some h
  obtain ⟨s3, _, h3, h⟩ := pbind_eq_some h
  injection h with h4
  injection h4 with hr _
  have c1 := takeWhile1_consumes h1
  have c2 := charP_eq_some h2
  have c3 := space0_consumes h3
  have c2' : s2.length + 1 = s1.length := by rw [c2]; simp
  rw [← hr]
  omega

theorem parse_frequency_consumes {s r : List Char} {q : ℚ}
    (h : parse_frequency s = some (r, q)) : r.length + 1 ≤ s.length := by
  unfold parse_frequency at h
  obtain ⟨s1, d, h1, h⟩ := pbind_eq_some h
  have c1 := takeWhile1_consumes h1
  split at h
  · injection h with h2
    injection h2 with hr _
    rw [← hr]
    omega
  · next s3 f hin =>
      obtain ⟨s2, _, h2, h3⟩ := pbind_eq_some hin
      have c2 := charP_eq_some h2
      have c3 := takeWhile1_consumes h3
      have c2' : s2.length + 1 = s1.length := by rw [c2]; simp
      injection h with h4
      injection h4 with hr _
      rw [← hr]
      omega

theorem parse_mode_consumes {s r : List Char} {m : Mode}
    (h : parse_mode s = some (r, m)) : r.length + 2 ≤ s.length := by
  unfold parse_mode at h
  split at h
  · next heq =>
      injection h with h1
      injection h1 with hr _
      have := tagNoCase_consumes heq
      simp only [List.length_cons, List.length_nil] at this
      rw [← hr]; omega
  · split at h
    · next heq =>
        injection h with h1
        injection h1 with hr _
        have := tagNoCase_consumes heq
        simp only [List.length_cons, List.length_nil] at this
        rw [← hr]; omega
    · split at h
      · next heq =>
          injection h with h1
          injection h1 with hr _
          have := tagNoCase_consumes heq
          simp only [List.length_cons, List.length_nil] at this
          rw [← hr]; omega
      · split at h
        · next heq =>
            injection h with h1
            injection h1 with hr _
            have := tagNoCase_consumes heq
            simp only [List.length_cons, List.length_nil] at this
            rw [← hr]; omega
        · split at h
          · next heq =>
              injection h with h1
              injection h1 with hr _
              have := tagNoCase_consumes heq
              simp only [List.length_cons, List.length_nil] at this
              rw [← hr]; omega
          · exact absurd h (by simp)

theorem parse_snr_tail_consumes {neg : Bool} {s1 r : List Char} {n : Int}
    (h : parse_snr_tail neg s1 = some (r, n)) : r.length + 4 ≤ s1.length := by
  unfold parse_snr_tail at h
  split at h
  · exact absurd h (by simp)
  · next s2 d heq =>
      have c1 := takeWhile1_consumes heq
      split at h
      · exact absurd h (by simp)
      · split at h
        · exact absurd h (by simp)
        · next s3 _ heq3 =>
            have c3 := takeWhile1_consumes heq3
            split at h
            · exact absurd h (by simp)
            · next s4 _ heq4 =>
                have c4 := tagNoCase_consumes heq4
                simp only [List.length_cons, List.length_nil] at c4
                injection h with h1
                injection h1 with hr _
                rw [← hr]
                omega

theorem parse_snr_consumes {s r : List Char} {n : Int}
    (h : parse_snr s = some (r, n)) : r.length + 4 ≤ s.length := by
  unfold parse_snr at h
  split at h
  · next s1 _ heq =>
      have hc := charP_eq_some heq
      have ht := parse_snr_tail_consumes h
      have hlen : s1.length + 1 = s.length := by rw [hc]; simp
      omega
  · have := parse_snr_tail_consumes h
    omega

theorem parse_wpm_consumes {s r : List Char} {n : Nat}
    (h : parse_wpm s = some (r, n)) : r.length + 5 ≤ s.length := by
  unfold parse_wpm at h
  split at h
  · exact absurd h (by simp)
  · next s1 d heq =>
      have c1 := takeWhile1_consumes heq
      split at h
      · exact absurd h (by simp)
      · split at h
        · exact absurd h (by simp)
        · next s2 _ heq2 =>
            have c2 := takeWhile1_consumes heq2
            split at h
            · exact absurd h (by simp)
            · next s3 _ heq3 =>
                have c3 := tagNoCase_consumes heq3
                simp only [List.length_cons, List.length_nil] at c3
                injection h with h1
                injection h1 with hr _
                rw [← hr]
                omega

theorem parse_spot_type_consumes {s r : List Char} {ty : SpotType}
    (h : parse_spot_type s = some (r, ty)) : r.length + 1 ≤ s.length := by
  unfold parse_spot_type at h
  split at h
  · next heq =>
      obtain ⟨s1, _, h1, hrest⟩ := pbind_eq_some heq
      obtain ⟨s2, _, h2, hrest2⟩ := pbind_eq_some hrest
      obtain ⟨s3, _, h3, hrest3⟩ := pbind_eq_some hrest2
      injection hrest3 with hi
      injection hi with hs3 _
      have c1 := tagNoCase_consumes h1
      have c2 := takeWhile1_consumes h2
      have c3 := tagNoCase_consumes h3
      simp only [List.length_cons, List.length_nil] at c1 c3
      injection h with h4
      injection h4 with hr _
      rw [← hr, ← hs3]
      omega
  · split at h
    · next heq =>
        have := tagNoCase_consumes heq
        simp only [List.length_cons, List.length_nil] at this
        injection h with h1
        injection h1 with hr _
        rw [← hr]; omega
    · split at h
      · next heq =>
          have := tagNoCase_consumes heq
          simp only [List.length_cons, List.length_nil] at this
          injection h with h1
          injection h1 with hr _
          rw [← hr]; omega
      · split at h
        · next heq =>
            have := takeWhile1_consumes heq
            injection h with h1
            injection h1 with hr _
            rw [← hr]; omega
        · exact absurd h (by simp)

theorem parse_time_full_eq_some {s r : List Char} {tm : Nat × Nat}
    (h : parse_time_full s = some (r, tm)) :
    ∃ s1 d, takeWhile1 isDigitA s = some (s1, d) ∧ tagNoCase ['Z'] s1 = some (r, ())
      ∧ d.length = 4 ∧ natOfDigits (d.take 2) ≤ 23 ∧ natOfDigits (d.drop 2) ≤ 59
      ∧ tm = (natOfDigits (d.take 2), natOfDigits (d.drop 2)) := by
  unfold parse_time_full at h
  split at h
  · exact absurd h (by simp)
  · next s1 d heq =>
      split at h
      · exact absurd h (by simp)
      · next s2 u heq2 =>
          split at h
          · next hlen =>
              split at h
              · next hhm =>
                  injection h with h1
                  injection h1 with hr htm
                  refine ⟨s1, d, heq, ?_, hlen, hhm.1, hhm.2, htm.symm⟩
                  rw [hr] at heq2
                  cases u
                  exact heq2
              · exact absurd h (by simp)
          · exact absurd h (by simp)

theorem parse_time_full_consumes {s r : List Char} {tm : Nat × Nat}
    (h : parse_time_full s = some (r, tm)) : r.length + 5 = s.length := by
  obtain ⟨s1, d, h1, h2, hlen, _, _, _⟩ := parse_time_full_eq_some h
  have c1 := takeWhile1_consumes h1
  have c2 := tagNoCase_consumes h2
  simp only [List.length_cons, List.length_nil] at c2
  omega

theorem parse_spot_inner_consumes {s r : List Char} {spot : CwSpot}
    (h : parse_spot_inner s = some (r, spot)) : r.length + 32 ≤ s.length := by
  unfold parse_spot_inner at h
  obtain ⟨s1, _, h1, h⟩ := pbind_eq_some h
  obtain ⟨s2, _, h2, h⟩ := pbind_eq_some h
  obtain ⟨s3, _, h3, h⟩ := pbind_eq_some h
  obtain ⟨s4, _, h4, h⟩ := pbind_eq_some h
  obtain ⟨s5, _, h5, h⟩ := pbind_eq_some h
  obtain ⟨s6, _, h6, h⟩ := pbind_eq_some h
  obtain ⟨s7, _, h7, h⟩ := pbind_eq_some h
  obtain ⟨s8, _, h8, h⟩ := pbind_eq_some h
  obtain ⟨s9, _, h9, h⟩ := pbind_eq_some h
  obtain ⟨s10, _, h10, h⟩ := pbind_eq_some h
  obtain ⟨s11, _, h11, h⟩ := pbind_eq_some h
  obtain ⟨s12, _, h12, h⟩ := pbind_eq_some h
  obtain ⟨s13, _, h13, h⟩ := pbind_eq_some h
  obtain ⟨s14, _, h14, h⟩ := pbind_eq_some h
  obtain ⟨s15, _, h15, h⟩ := pbind_eq_some h
  obtain ⟨s16, _, h16, h⟩ := pbind_eq_some h
  injection h with hfin
  injection hfin with hr _
  have c1 := parse_dx_de_consumes h1
  have c2 := parse_spotter_consumes h2
  have c3 := space0_consumes h3
  have c4 := parse_frequency_consumes h4
  have c5 := takeWhile1_consumes h5
  have c6 := takeWhile1_consumes h6
  have c7 := takeWhile1_consumes h7
  have c8 := parse_mode_consumes h8
  have c9 := takeWhile1_consumes h9
  have c10 := parse_snr_consumes h10
  have c11 := takeWhile1_consumes h11
  have c12 := parse_wpm_consumes h12
  have c13 := takeWhile1_consumes h13
  have c14 := parse_spot_type_consumes h14
  have c15 := space0_consumes h15
  have c16 := parse_time_full_consumes h16
  rw [← hr]
  omega

/-- C2 (amended): if `parse_spot` accepts a line whose trimmed form
begins with one of the three literal prefixes the pre-filter checks
(`DX de `, `DX DE `, `dx de `), then `looks_like_spot` accepts it: the
trimmed length of any accepted line exceeds 20 (an accepted line
consumes at least 32 characters). -/
theorem C2_prefilter_amended (L : List Char) (spot : CwSpot)
    (h : parse_spot L = Except.ok spot)
    (hpre : (List.isPrefixOf ['D', 'X', ' ', 'd', 'e', ' '] (trimL L)
          || List.isPrefixOf ['D', 'X', ' ', 'D', 'E', ' '] (trimL L)
          || List.isPrefixOf ['d', 'x', ' ', 'd', 'e', ' '] (trimL L)) = true) :
    looks_like_spot L = true := by
  unfold parse_spot at h
  split at h
  · next r spot' hinner =>
      have hcons := parse_spot_inner_consumes hinner
      unfold looks_like_spot
      have h20 : decide (20 < (trimL L).length) = true := by
        apply decide_eq_true
        omega
      dsimp only
      rw [h20, hpre]
      rfl
  · exact absurd h (by simp)

/-- The end-to-end example line of spec §8 and its parse. -/
def c2line : List Char :=
  "DX de EA5WU-#:    7018.3  RW1M           CW    19 dB  18 WPM  CQ      2259Z".toList

/-- The spot parsed from `c2line`. -/
def c2spot : CwSpot :=
  ⟨"EA5WU-#".toList, mkRat 70183 10, "RW1M".toList, Mode.Cw, 19, 18, SpotType.Cq, (22, 59)⟩

/-- C2 witness: the amended pre-filter implication at a concrete
accepted line with the canonical `DX de ` casing. -/
theorem C2_prefilter_amended_witness :
    parse_spot c2line = Except.ok c2spot ∧ looks_like_spot c2line = true :=
  ⟨by decide, C2_prefilter_amended c2line c2spot (by decide) (by decide)⟩

/-! ## Parser: appending trailing input (C9)

`parse_spot` discards the leftover input of the field sequence on
success.  The lemmas below show each embedded combinator is stable
under appending input after the consumed prefix (given the conditions
that hold at its position in the sequence), leading to: appending any
text to an accepted line yields the same spot.
-/

theorem takeWhile_dropWhile_append {p : Char → Bool} {s : List Char} (u : List Char)
    (h : s.dropWhile p ≠ []) :
    (s ++ u).takeWhile p = s.takeWhile p ∧ (s ++ u).dropWhile p = s.dropWhile p ++ u := by
  induction s with
  | nil => exact absurd rfl h
  | cons c t ih =>
      by_cases hc : p c
      · have ht : t.dropWhile p ≠ [] := by
          intro hnil
          apply h
          simp [List.dropWhile_cons, hc, hnil]
        obtain ⟨ih1, ih2⟩ := ih ht
        constructor
        · simp [List.takeWhile_cons, hc, ih1]
        · simp [List.dropWhile_cons, hc, ih2]
      · constructor
        · simp [List.takeWhile_cons, hc]
        · simp [List.dropWhile_cons, hc]

theorem dropWhile_append_all {p : Char → Bool} {l1 : List Char} (l2 : List Char)
    (h : ∀ c ∈ l1, p c = true) : (l1 ++ l2).dropWhile p = l2.dropWhile p := by
  induction l1 with
  | nil => rfl
  | cons c t ih =>
      have hc := h c (by simp)
      simp only [List.cons_append, List.dropWhile_cons, hc]
      exact ih (fun d hd => h d (by simp [hd]))

theorem takeWhile1_stable {p : Char → Bool} {s r v : List Char} (u : List Char)
    (h : takeWhile1 p s = some (r, v)) (hr : r ≠ []) :
    takeWhile1 p (s ++ u) = some (r ++ u, v) := by
  obtain ⟨hv, hrd, hne⟩ := takeWhile1_eq_some h
  have hd : s.dropWhile p ≠ [] := by rw [← hrd]; exact hr
  obtain ⟨h1, h2⟩ := takeWhile_dropWhile_append u hd
  unfold takeWhile1
  rw [h1, h2, ← hv, ← hrd]
  have : (v.isEmpty = true) = False := by simp [List.isEmpty_iff, hne]
  rw [if_neg (by simp [List.isEmpty_iff, hne])]

theorem takeWhile1_none_stable {p : Char → Bool} {s : List Char} (u : List Char)
    (h : takeWhile1 p s = none) (hs : s ≠ []) : takeWhile1 p (s ++ u) = none := by
  unfold takeWhile1 at h ⊢
  split at h
  · next he =>
      match s, hs with
      | c :: t, _ =>
          simp only [List.takeWhile_cons] at he
          split at he
          · simp at he
          · next hc =>
              rw [List.cons_append]
              rw [if_pos]
              simp [List.takeWhile_cons, hc]
  · exact absurd h (by simp)

theorem takeWhile1_input_head {p : Char → Bool} {s r v : List Char}
    (h : takeWhile1 p s = some (r, v)) : ∃ c rest, s = c :: rest ∧ p c = true := by
  obtain ⟨hv, _, hne⟩ := takeWhile1_eq_some h
  match s, hv, hne with
  | [], hv, hne => exact absurd hv hne
  | c :: t, hv, hne =>
      refine ⟨c, t, rfl, ?_⟩
      by_contra hc
      rw [List.takeWhile_cons, if_neg (by simpa using hc)] at hv
      exact hne hv

theorem ciStarts_append_of_le : ∀ {t s : List Char} (u : List Char),
    t.length ≤ s.length → ciStarts t (s ++ u) = ciStarts t s
  | [], s, u, _ => rfl
  | c :: cs, [], u, h => by simp at h
  | c :: cs, d :: ds, u, h => by
      simp only [List.cons_append, ciStarts, List.append_eq]
      rw [ciStarts_append_of_le u (by simpa using h)]

theorem tagNoCase_stable {t s r : List Char} {v : Unit} (u : List Char)
    (h : tagNoCase t s = some (r, v)) : tagNoCase t (s ++ u) = some (r ++ u, v) := by
  obtain ⟨hci, hr⟩ := tagNoCase_eq_some h
  have hle := ciStarts_length_le hci
  unfold tagNoCase
  rw [ciStarts_append_of_le u hle, hci]
  rw [if_pos rfl, List.drop_append_of_le_length hle, ← hr]

theorem tagNoCase_none_stable {t s : List Char} (u : List Char)
    (h : tagNoCase t s = none) (hle : t.length ≤ s.length) :
    tagNoCase t (s ++ u) = none := by
  unfold tagNoCase at h ⊢
  rw [ciStarts_append_of_le u hle]
  split at h
  · exact absurd h (by simp)
  · next hci => rw [if_neg hci]

theorem charP_stable {c : Char} {s r : List Char} {v : Unit} (u : List Char)
    (h : charP c s = some (r, v)) : charP c (s ++ u) = some (r ++ u, v) := by
  have hs := charP_eq_some h
  rw [hs, List.cons_append]
  show (if c = c then some (r ++ u, ()) else none) = some (r ++ u, v)
  rw [if_pos rfl]

theorem charP_none_stable {c : Char} {s : List Char} (u : List Char)
    (h : charP c s = none) (hs : s ≠ []) : charP c (s ++ u) = none := by
  match s, hs with
  | d :: t, _ =>
      have hd : ¬ d = c := by
        intro hdc
        subst hdc
        unfold charP at h
        simp at h
      rw [List.cons_append]
      show (if d = c then some (t ++ u, ()) else none) = none
      rw [if_neg hd]

theorem space0_stable {s r : List Char} {v : Unit} (u : List Char)
    (h : space0 s = some (r, v)) (hr : r ≠ []) : space0 (s ++ u) = some (r ++ u, v) := by
  have hrd := space0_eq h
  have hd : s.dropWhile isNomSpace ≠ [] := by rw [← hrd]; exact hr
  unfold space0
  rw [(takeWhile_dropWhile_append u hd).2, ← hrd]

theorem pbind_some {α β : Type} (s1 : List Char) (a : α)
    (f : List Char → α → Option (List Char × β)) : pbind (some (s1, a)) f = f s1 a := rfl

theorem pbind_none {α β : Type} (f : List Char → α → Option (List Char × β)) :
    pbind none f = none := rfl

theorem parse_dx_de_stable {s r : List Char} {v : Unit} (u : List Char)
    (h : parse_dx_de s = some (r, v)) (hrne : r ≠ []) :
    parse_dx_de (s ++ u) = some (r ++ u, v) := by
  unfold parse_dx_de at h ⊢
  obtain ⟨s1, v1, h1, h⟩ := pbind_eq_some h
  obtain ⟨s2, v2, h2, h⟩ := pbind_eq_some h
  obtain ⟨s3, v3, h3, h⟩ := pbind_eq_some h
  obtain ⟨s4, v4, h4, h⟩ := pbind_eq_some h
  injection h with h5
  injection h5 with hr hv
  subst hr
  subst hv
  have hs2 : s2 ≠ [] := by
    have hle := ciStarts_length_le (tagNoCase_eq_some h3).1
    intro hnil
    rw [hnil] at hle
    simp at hle
  rw [tagNoCase_stable u h1, pbind_some, takeWhile1_stable u h2 hs2, pbind_some,
      tagNoCase_stable u h3, pbind_some, takeWhile1_stable u h4 hrne, pbind_some]

theorem parse_spotter_stable {s r cs : List Char} (u : List Char)
    (h : parse_spotter s = some (r, cs)) (hrne : r ≠ []) :
    parse_spotter (s ++ u) = some (r ++ u, cs) := by
  unfold parse_spotter parse_callsign at h ⊢
  obtain ⟨s1, v1, h1, h⟩ := pbind_eq_some h
  obtain ⟨s2, v2, h2, h⟩ := pbind_eq_some h
  obtain ⟨s3, v3, h3, h⟩ := pbind_eq_some h
  injection h with h4
  injection h4 with hr hv
  subst hr
  subst hv
  have hs1 : s1 ≠ [] := by rw [charP_eq_some h2]; simp
  rw [takeWhile1_stable u h1 hs1, pbind_some, charP_stable u h2, pbind_some,
      space0_stable u h3 hrne, pbind_some]

theorem parse_frequency_stable {s r : List Char} {q : ℚ} (u : List Char) (c : Char)
    (rest : List Char) (h : parse_frequency s = some (r, q)) (hr : r = c :: rest)
    (hc : isNomSpace c = true) : parse_frequency (s ++ u) = some (r ++ u, q) := by
  unfold parse_frequency at h ⊢
  obtain ⟨s1, d, h1, h⟩ := pbind_eq_some h
  split at h
  · next hin =>
      injection h with h2
      injection h2 with hs1r hq
      have hs1ne : s1 ≠ [] := by rw [hs1r, hr]; simp
      rw [takeWhile1_stable u h1 hs1ne, pbind_some]
      have hdot : charP '.' s1 = none := by
        rw [hs1r, hr]
        have hcdot : ¬ c = '.' := by
          intro hcc
          rw [hcc] at hc
          exact absurd hc (by decide)
        show (if c = '.' then some (rest, ()) else none) = none
        rw [if_neg hcdot]
      have hin2 : pbind (charP '.' (s1 ++ u)) (fun s2 _ => takeWhile1 isDigitA s2) = none := by
        rw [charP_none_stable u hdot hs1ne, pbind_none]
      rw [hin2, hs1r, ← hq]
  · next s3 f hin =>
      injection h with h2
      injection h2 with hs3 hq
      obtain ⟨s2, v2, hdot, hdig⟩ := pbind_eq_some hin
      have hs1 : s1 ≠ [] := by rw [charP_eq_some hdot]; simp
      have hs3ne : s3 ≠ [] := by rw [hs3, hr]; simp
      rw [takeWhile1_stable u h1 hs1, pbind_some]
      have hin2 : pbind (charP '.' (s1 ++ u)) (fun s2 _ => takeWhile1 isDigitA s2)
          = some (s3 ++ u, f) := by
        rw [charP_stable u hdot, pbind_some]
        exact takeWhile1_stable u hdig hs3ne
      rw [hin2, hs3, ← hq]

theorem parse_mode_stable {s r : List Char} {m : Mode} (u : List Char)
    (h : parse_mode s = some (r, m)) (hrne : r ≠ []) :
    parse_mode (s ++ u) = some (r ++ u, m) := by
  have hrlen : 1 ≤ r.length := by
    cases r with
    | nil => exact absurd rfl hrne
    | cons a t => simp
  unfold parse_mode at h ⊢
  split at h
  · next r1 v1 heq =>
      injection h with hh
      injection hh with hr1 hm
      subst hr1; subst hm
      rw [tagNoCase_stable u heq]
  · next hcw =>
    split at h
    · next r1 v1 heq =>
        injection h with hh
        injection hh with hr1 hm
        subst hr1; subst hm
        have hlen := tagNoCase_consumes heq
        simp only [List.length_cons, List.length_nil] at hlen
        rw [tagNoCase_none_stable u hcw (by simp only [List.length_cons, List.length_nil]; omega), tagNoCase_stable u heq]
    · next hrtty =>
      split at h
      · next r1 v1 heq =>
          injection h with hh
          injection hh with hr1 hm
          subst hr1; subst hm
          have hlen := tagNoCase_consumes heq
          simp only [List.length_cons, List.length_nil] at hlen
          rw [tagNoCase_none_stable u hcw (by simp only [List.length_cons, List.length_nil]; omega),
            tagNoCase_none_stable u hrtty (by simp only [List.length_cons, List.length_nil]; omega), tagNoCase_stable u heq]
      · next hft8 =>
        split at h
        · next r1 v1 heq =>
            injection h with hh
            injection hh with hr1 hm
            subst hr1; subst hm
            have hlen := tagNoCase_consumes heq
            simp only [List.length_cons, List.length_nil] at hlen
            rw [tagNoCase_none_stable u hcw (by simp only [List.length_cons, List.length_nil]; omega),
              tagNoCase_none_stable u hrtty (by simp only [List.length_cons, List.length_nil]; omega),
              tagNoCase_none_stable u hft8 (by simp only [List.length_cons, List.length_nil]; omega), tagNoCase_stable u heq]
        · next hft4 =>
          split at h
          · next r1 v1 heq =>
              injection h with hh
              injection hh with hr1 hm
              subst hr1; subst hm
              have hlen := tagNoCase_consumes heq
              simp only [List.length_cons, List.length_nil] at hlen
              rw [tagNoCase_none_stable u hcw (by simp only [List.length_cons, List.length_nil]; omega),
                tagNoCase_none_stable u hrtty (by simp only [List.length_cons, List.length_nil]; omega),
                tagNoCase_none_stable u hft8 (by simp only [List.length_cons, List.length_nil]; omega),
                tagNoCase_none_stable u hft4 (by simp only [List.length_cons, List.length_nil]; omega), tagNoCase_stable u heq]
          · exact absurd h (by simp)

theorem parse_snr_tail_stable {neg : Bool} {s1 r : List Char} {n : Int} (u : List Char)
    (h : parse_snr_tail neg s1 = some (r, n)) :
    parse_snr_tail neg (s1 ++ u) = some (r ++ u, n) := by
  unfold parse_snr_tail at h ⊢
  split at h
  · exact absurd h (by simp)
  · next s2 d heq =>
      split at h
      · exact absurd h (by simp)
      · next hguard =>
        split at h
        · exact absurd h (by simp)
        · next s3 v3 heq3 =>
            split at h
            · exact absurd h (by simp)
            · next s4 v4 heq4 =>
                injection h with hh
                injection hh with hr hn
                subst hr
                subst hn
                have hs2 : s2 ≠ [] := by
                  obtain ⟨c, rest, hcr, _⟩ := takeWhile1_input_head heq3
                  rw [hcr]
                  simp
                have hs3 : s3 ≠ [] := by
                  have hle := ciStarts_length_le (tagNoCase_eq_some heq4).1
                  intro hnil
                  rw [hnil] at hle
                  simp at hle
                simp only [takeWhile1_stable u heq hs2, if_neg hguard,
                  takeWhile1_stable u heq3 hs3, tagNoCase_stable u heq4]

theorem parse_snr_stable {s r : List Char} {n : Int} (u : List Char)
    (h : parse_snr s = some (r, n)) : parse_snr (s ++ u) = some (r ++ u, n) := by
  unfold parse_snr at h ⊢
  split at h
  · next s1 v1 heq =>
      rw [charP_stable u heq]
      exact parse_snr_tail_stable u h
  · next hneg =>
      have hcons := parse_snr_tail_consumes h
      have hsne : s ≠ [] := by
        intro hnil
        rw [hnil] at hcons
        simp at hcons
      rw [charP_none_stable u hneg hsne]
      exact parse_snr_tail_stable u h

theorem parse_wpm_stable {s r : List Char} {n : Nat} (u : List Char)
    (h : parse_wpm s = some (r, n)) : parse_wpm (s ++ u) = some (r ++ u, n) := by
  unfold parse_wpm at h ⊢
  split at h
  · exact absurd h (by simp)
  · next s1 d heq =>
      split at h
      · exact absurd h (by simp)
      · next hguard =>
        split at h
        · exact absurd h (by simp)
        · next s2 v2 heq2 =>
            split at h
            · exact absurd h (by simp)
            · next s3 v3 heq3 =>
                injection h with hh
                injection hh with hr hn
                subst hr
                subst hn
                have hs1 : s1 ≠ [] := by
                  obtain ⟨c, rest, hcr, _⟩ := takeWhile1_input_head heq2
                  rw [hcr]
                  simp
                have hs2 : s2 ≠ [] := by
                  have hle := ciStarts_length_le (tagNoCase_eq_some heq3).1
                  intro hnil
                  rw [hnil] at hle
                  simp at hle
                simp only [takeWhile1_stable u heq hs1, if_neg hguard,
                  takeWhile1_stable u heq2 hs2, tagNoCase_stable u heq3]

theorem parse_time_full_stable {s r : List Char} {tm : Nat × Nat} (u : List Char)
    (h : parse_time_full s = some (r, tm)) :
    parse_time_full (s ++ u) = some (r ++ u, tm) := by
  obtain ⟨s1, d, h1, h2, hlen, hh, hm2, htm⟩ := parse_time_full_eq_some h
  have hs1 : s1 ≠ [] := by
    have hle := ciStarts_length_le (tagNoCase_eq_some h2).1
    intro hnil
    rw [hnil] at hle
    simp at hle
  unfold parse_time_full
  simp only [takeWhile1_stable u h1 hs1, tagNoCase_stable u h2,
    if_pos hlen, if_pos (And.intro hh hm2), htm]

theorem ciStarts_cons_elim {c : Char} {cs s : List Char} (h : ciStarts (c :: cs) s = true) :
    ∃ d ds, s = d :: ds ∧ lowerEq c d = true ∧ ciStarts cs ds = true := by
  match s with
  | [] => exact absurd h (by simp [ciStarts])
  | d :: ds =>
      simp only [ciStarts, Bool.and_eq_true] at h
      exact ⟨d, ds, rfl, h.1, h.2⟩

theorem lowerEq_false_of {a b d : Char} (h : lowerEq b d = true)
    (hab : toLowerA a = toLowerA b → False) : lowerEq a d = false := by
  simp only [lowerEq, beq_iff_eq] at h
  simp only [lowerEq, beq_eq_false_iff_ne, ne_eq]
  intro hq
  exact hab (hq.trans h.symm)

theorem tagNoCase_mismatch_append {c : Char} {cs : List Char} {d : Char} (ds u : List Char)
    (hd : lowerEq c d = false) : tagNoCase (c :: cs) ((d :: ds) ++ u) = none := by
  have hci : ¬ ciStarts (c :: cs) ((d :: ds) ++ u) = true := by
    rw [List.cons_append]
    simp [ciStarts, hd]
  unfold tagNoCase
  rw [if_neg hci]

theorem ciStarts_takeWhile_length {p : Char → Bool} :
    ∀ {t s : List Char}, ciStarts t s = true →
      (∀ c, c ∈ t → ∀ d, lowerEq c d = true → p d = true) →
      t.length ≤ (s.takeWhile p).length
  | [], s, _, _ => by simp
  | c :: cs, [], h, _ => by exact absurd h (by simp [ciStarts])
  | c :: cs, d :: ds, h, hp => by
      simp only [ciStarts, Bool.and_eq_true] at h
      have hd : p d = true := hp c (by simp) d h.1
      rw [List.takeWhile_cons, if_pos hd]
      simp only [List.length_cons]
      have := ciStarts_takeWhile_length h.2 (fun c hc => hp c (by simp [hc]))
      omega

theorem parse_spot_type_stable {s r : List Char} {ty : SpotType} (u : List Char)
    (h : parse_spot_type s = some (r, ty)) (hr5 : 5 ≤ r.length)
    (hdig : ∃ c t, r.dropWhile isNomSpace = c :: t ∧ isDigitA c = true) :
    parse_spot_type (s ++ u) = some (r ++ u, ty) := by
  unfold parse_spot_type at h ⊢
  split at h
  · next r1 v1 heq =>
      injection h with hh
      injection hh with hr1 hty
      subst hr1; subst hty
      obtain ⟨s1, w1, h1, hrest⟩ := pbind_eq_some heq
      obtain ⟨s2, w2, h2, hrest2⟩ := pbind_eq_some hrest
      obtain ⟨s3, w3, h3, hrest3⟩ := pbind_eq_some hrest2
      injection hrest3 with hi
      injection hi with hs3 hv1
      subst hs3
      have hs2 : s2 ≠ [] := by
        have hle := ciStarts_length_le (tagNoCase_eq_some h3).1
        intro hnil
        rw [hnil] at hle
        simp at hle
      simp only [tagNoCase_stable u h1, pbind_some, takeWhile1_stable u h2 hs2,
        tagNoCase_stable u h3]
  · next hnc =>
    split at h
    · next r1 v1 heq =>
        injection h with hh
        injection hh with hr1 hty
        subst hr1; subst hty
        obtain ⟨d, ds, hsd, hBd, hci2⟩ := ciStarts_cons_elim (tagNoCase_eq_some heq).1
        subst hsd
        have hN : lowerEq 'N' d = false := lowerEq_false_of hBd (by decide)
        simp only [tagNoCase_mismatch_append ds u hN, pbind_none, tagNoCase_stable u heq]
    · next hbe =>
      split at h
      · next r1 v1 heq =>
          injection h with hh
          injection hh with hr1 hty
          subst hr1; subst hty
          obtain ⟨d, ds, hsd, hCd, hci2⟩ := ciStarts_cons_elim (tagNoCase_eq_some heq).1
          subst hsd
          have hN : lowerEq 'N' d = false := lowerEq_false_of hCd (by decide)
          have hB : lowerEq 'B' d = false := lowerEq_false_of hCd (by decide)
          simp only [tagNoCase_mismatch_append ds u hN, pbind_none,
            tagNoCase_mismatch_append ds u hB, tagNoCase_stable u heq]
      · next hcq =>
        split at h
        · next r1 v1 heq =>
            injection h with hh
            injection hh with hr1 hty
            subst hr1; subst hty
            obtain ⟨hv, hrd, hvne⟩ := takeWhile1_eq_some heq
            obtain ⟨hlen, hv1len⟩ := takeWhile1_consumes heq
            have hrne : r1 ≠ [] := List.length_pos.mp (by omega)
            have hG4 := takeWhile1_stable u heq hrne
            have hG2 := tagNoCase_none_stable u hbe
              (by simp only [List.length_cons, List.length_nil]; omega)
            have hG3 := tagNoCase_none_stable u hcq
              (by simp only [List.length_cons, List.length_nil]; omega)
            rcases hN : tagNoCase ['N', 'C', 'D', 'X', 'F'] s with _ | ⟨s1, w1⟩
            · have hN2 := tagNoCase_none_stable u hN
                (by simp only [List.length_cons, List.length_nil]; omega)
              simp only [hN2, pbind_none, hG2, hG3, hG4]
            · rw [hN, pbind_some] at hnc
              obtain ⟨hciN, hs1d⟩ := tagNoCase_eq_some hN
              have hs1len : s1.length + 5 = s.length := by
                have := tagNoCase_consumes hN
                simp only [List.length_cons, List.length_nil] at this
                omega
              have hs1ne : s1 ≠ [] := List.length_pos.mp (by omega)
              rcases hSp : takeWhile1 isNomSpace s1 with _ | ⟨s2, w2⟩
              · have hSp2 := takeWhile1_none_stable u hSp hs1ne
                simp only [tagNoCase_stable u hN, pbind_some, hSp2, pbind_none,
                  hG2, hG3, hG4]
              · rw [hSp, pbind_some] at hnc
                rcases hB : tagNoCase ['B'] s2 with _ | ⟨s3, w3⟩
                · have hs2ne : s2 ≠ [] := by
                    intro hnil
                    obtain ⟨hv2, hrd2, hvne2⟩ := takeWhile1_eq_some hSp
                    have hall : ∀ c ∈ s1, isNomSpace c = true := by
                      rw [hnil] at hrd2
                      exact List.dropWhile_eq_nil_iff.mp hrd2.symm
                    have hchunk5 :
                        (5 : Nat) ≤ (s.takeWhile (fun c => isAlnumA c || c = ' ')).length := by
                      have hprop : ∀ c, c ∈ ['N', 'C', 'D', 'X', 'F'] →
                          ∀ d, lowerEq c d = true → (isAlnumA d || d = ' ') = true := by
                        intro c hc d hld
                        have hda : isAlnumA d = true :=
                          alnum_of_lowerEq hld (by fin_cases hc <;> decide)
                        simp [hda]
                      have := ciStarts_takeWhile_length hciN hprop
                      simpa using this
                    have h5v1 : 5 ≤ v1.length := by rw [hv]; exact hchunk5
                    have hsum : v1 ++ r1 = s := by
                      rw [hv, hrd]
                      exact List.takeWhile_append_dropWhile _ _
                    have hrdrop : r1 = s.drop v1.length := by
                      conv_rhs => rw [← hsum]
                      rw [List.drop_left]
                    have hrmem : ∀ c ∈ r1, isNomSpace c = true := by
                      intro c hcR
                      apply hall
                      have hr2 : r1 = s1.drop (v1.length - 5) := by
                        rw [hrdrop, hs1d, List.drop_drop]
                        congr 1
                        simp only [List.length_cons, List.length_nil]
                        omega
                      rw [hr2] at hcR
                      exact List.mem_of_mem_drop hcR
                    have hnilr : r1.dropWhile isNomSpace = [] :=
                      List.dropWhile_eq_nil_iff.mpr hrmem
                    obtain ⟨cd, td, hcd, hdd⟩ := hdig
                    rw [hnilr] at hcd
                    exact absurd hcd (by simp)
                  have hch : tagNoCase ['B'] (s2 ++ u) = none :=
                    tagNoCase_none_stable u hB (by
                      simp only [List.length_cons, List.length_nil]
                      have := List.length_pos.mpr hs2ne
                      omega)
                  simp only [tagNoCase_stable u hN, pbind_some,
                    takeWhile1_stable u hSp hs2ne, hch, pbind_none, hG2, hG3, hG4]
                · rw [hB, pbind_some] at hnc
                  exact absurd hnc (by simp)
        · exact absurd h (by simp)

theorem parse_spot_inner_stable {s r : List Char} {spot : CwSpot} (u : List Char)
    (h : parse_spot_inner s = some (r, spot)) :
    parse_spot_inner (s ++ u) = some (r ++ u, spot) := by
  unfold parse_spot_inner parse_callsign at h ⊢
  obtain ⟨s1, v1, h1, h⟩ := pbind_eq_some h
  obtain ⟨s2, v2, h2, h⟩ := pbind_eq_some h
  obtain ⟨s3, v3, h3, h⟩ := pbind_eq_some h
  obtain ⟨s4, v4, h4, h⟩ := pbind_eq_some h
  obtain ⟨s5, v5, h5, h⟩ := pbind_eq_some h
  obtain ⟨s6, v6, h6, h⟩ := pbind_eq_some h
  obtain ⟨s7, v7, h7, h⟩ := pbind_eq_some h
  obtain ⟨s8, v8, h8, h⟩ := pbind_eq_some h
  obtain ⟨s9, v9, h9, h⟩ := pbind_eq_some h
  obtain ⟨s10, v10, h10, h⟩ := pbind_eq_some h
  obtain ⟨s11, v11, h11, h⟩ := pbind_eq_some h
  obtain ⟨s12, v12, h12, h⟩ := pbind_eq_some h
  obtain ⟨s13, v13, h13, h⟩ := pbind_eq_some h
  obtain ⟨s14, v14, h14, h⟩ := pbind_eq_some h
  obtain ⟨s15, v15, h15, h⟩ := pbind_eq_some h
  obtain ⟨s16, v16, h16, h⟩ := pbind_eq_some h
  injection h with hfin
  injection hfin with hr hspot
  subst hr
  subst hspot
  have c1 := parse_dx_de_consumes h1
  have c2 := parse_spotter_consumes h2
  have c3 := space0_consumes h3
  have c4 := parse_frequency_consumes h4
  have c5 := takeWhile1_consumes h5
  have c6 := takeWhile1_consumes h6
  have c7 := takeWhile1_consumes h7
  have c8 := parse_mode_consumes h8
  have c9 := takeWhile1_consumes h9
  have c10 := parse_snr_consumes h10
  have c11 := takeWhile1_consumes h11
  have c12 := parse_wpm_consumes h12
  have c13 := takeWhile1_consumes h13
  have c14 := parse_spot_type_consumes h14
  have c15 := space0_consumes h15
  have c16 := parse_time_full_consumes h16
  have hs1ne : s1 ≠ [] := List.length_pos.mp (by omega)
  have hs2ne : s2 ≠ [] := List.length_pos.mp (by omega)
  have hs3ne : s3 ≠ [] := List.length_pos.mp (by omega)
  have hs5ne : s5 ≠ [] := List.length_pos.mp (by omega)
  have hs6ne : s6 ≠ [] := List.length_pos.mp (by omega)
  have hs7ne : s7 ≠ [] := List.length_pos.mp (by omega)
  have hs8ne : s8 ≠ [] := List.length_pos.mp (by omega)
  have hs9ne : s9 ≠ [] := List.length_pos.mp (by omega)
  have hs11ne : s11 ≠ [] := List.length_pos.mp (by omega)
  have hs13ne : s13 ≠ [] := List.length_pos.mp (by omega)
  have hs15ne : s15 ≠ [] := List.length_pos.mp (by omega)
  have hr5s14 : 5 ≤ s14.length := by omega
  obtain ⟨c4h, rest4, hcr4, hc4⟩ := takeWhile1_input_head h5
  have hdig : ∃ c t, s14.dropWhile isNomSpace = c :: t ∧ isDigitA c = true := by
    obtain ⟨t1, dd, ht1, hz, hl4, hhh, hmm, htm⟩ := parse_time_full_eq_some h16
    obtain ⟨c, rest, hcr, hc⟩ := takeWhile1_input_head ht1
    exact ⟨c, rest, by rw [← space0_eq h15]; exact hcr, hc⟩
  rw [parse_dx_de_stable u h1 hs1ne, pbind_some,
      parse_spotter_stable u h2 hs2ne, pbind_some,
      space0_stable u h3 hs3ne, pbind_some,
      parse_frequency_stable u c4h rest4 h4 hcr4 hc4, pbind_some,
      takeWhile1_stable u h5 hs5ne, pbind_some,
      takeWhile1_stable u h6 hs6ne, pbind_some,
      takeWhile1_stable u h7 hs7ne, pbind_some,
      parse_mode_stable u h8 hs8ne, pbind_some,
      takeWhile1_stable u h9 hs9ne, pbind_some,
      parse_snr_stable u h10, pbind_some,
      takeWhile1_stable u h11 hs11ne, pbind_some,
      parse_wpm_stable u h12, pbind_some,
      takeWhile1_stable u h13 hs13ne, pbind_some,
      parse_spot_type_stable u h14 hr5s14 hdig, pbind_some,
      space0_stable u h15 hs15ne, pbind_some,
      parse_time_full_stable u h16, pbind_some]

theorem trimStartL_append {L : List Char} (T : List Char) (h : trimStartL L ≠ []) :
    trimStartL (L ++ T) = trimStartL L ++ T := by
  unfold trimStartL at h ⊢
  exact (takeWhile_dropWhile_append T h).2

theorem trimEndL_append {M : List Char} (T : List Char) (h : trimEndL M ≠ []) :
    ∃ U, trimEndL (M ++ T) = trimEndL M ++ U := by
  unfold trimEndL at h ⊢
  by_cases hT : T.reverse.dropWhile isRustWs = []
  · refine ⟨[], ?_⟩
    rw [List.reverse_append]
    rw [dropWhile_append_all M.reverse (List.dropWhile_eq_nil_iff.mp hT)]
    simp
  · have hM : (M.reverse.dropWhile isRustWs).reverse
        ++ (M.reverse.takeWhile isRustWs).reverse = M := by
      rw [← List.reverse_append, List.takeWhile_append_dropWhile, List.reverse_reverse]
    refine ⟨(M.reverse.takeWhile isRustWs).reverse
        ++ (T.reverse.dropWhile isRustWs).reverse, ?_⟩
    rw [List.reverse_append, (takeWhile_dropWhile_append M.reverse hT).2,
        List.reverse_append, List.reverse_reverse]
    rw [← List.append_assoc, hM]

theorem trimL_append {L : List Char} (T : List Char) (h : trimL L ≠ []) :
    ∃ U, trimL (L ++ T) = trimL L ++ U := by
  unfold trimL at h ⊢
  have hs : trimStartL L ≠ [] := by
    intro hnil
    rw [hnil] at h
    exact h rfl
  rw [trimStartL_append T hs]
  exact trimEndL_append T h

/-- C9: `parse_spot` ignores any input appended after an accepted line:
the inner field sequence consumes through the time token and its
leftover is discarded on success, so `parse_spot (L ++ T)` returns the
very same spot as `parse_spot L` for every trailing `T`. -/
theorem C9_trailing_input (L T : List Char) (spot : CwSpot)
    (h : parse_spot L = Except.ok spot) : parse_spot (L ++ T) = Except.ok spot := by
  unfold parse_spot at h ⊢
  split at h
  · next r spot0 hinner =>
      injection h with hsp
      subst hsp
      have hlen := parse_spot_inner_consumes hinner
      have htne : trimL L ≠ [] := List.length_pos.mp (by omega)
      obtain ⟨U, hU⟩ := trimL_append T htne
      rw [hU, parse_spot_inner_stable U hinner]
  · exact absurd h (by simp)

/-- C9 witness: appending ` garbage` to the spec example line leaves the
parsed spot unchanged. -/
theorem C9_trailing_input_witness :
    parse_spot (c2line ++ [' ', 'g', 'a', 'r', 'b', 'a', 'g', 'e']) = Except.ok c2spot :=
  C9_trailing_input c2line [' ', 'g', 'a', 'r', 'b', 'a', 'g', 'e'] c2spot (by decide)

/-! ## Storage invariants (C1, C5)

The preserved invariant: each queue tracks its own byte count and cap,
the global byte total is the sum of the per-queue counts and stays
within the budget, and the back element of a nonempty queue carries the
last assigned sequence number (`next_seq - 1`). -/

def FInv {σ : Type} (sz : σ → Nat) (fs : FilterStorage σ) : Prop :=
  fs.current_size_bytes = (fs.spots.map (fun e => sz e.2)).sum ∧
  1 ≤ fs.max_kept_entries ∧
  fs.spots.length ≤ fs.max_kept_entries ∧
  1 ≤ fs.next_seq ∧
  (fs.spots ≠ [] → ∃ e, fs.spots.getLast? = some e ∧ e.1 + 1 = fs.next_seq ∧ 1 ≤ e.1)

def Inv {σ : Type} (sz : σ → Nat) (st : SpotStorage σ) : Prop :=
  (∀ fs ∈ st.filters, FInv sz fs) ∧
  (st.filters.map (fun fs => fs.current_size_bytes)).sum = st.total_size_bytes ∧
  st.total_size_bytes ≤ st.global_max_size

theorem pop_oldest_spec {σ : Type} {fs fs1 : FilterStorage σ} {sz : σ → Nat} {rsz : Nat}
    (h : fs.pop_oldest sz = some (rsz, fs1)) :
    ∃ e, fs.spots = e :: fs1.spots ∧ rsz = sz e.2 ∧
      fs1.current_size_bytes = fs.current_size_bytes - sz e.2 ∧
      fs1.max_kept_entries = fs.max_kept_entries ∧ fs1.next_seq = fs.next_seq := by
  unfold FilterStorage.pop_oldest at h
  match hs : fs.spots with
  | [] => rw [hs] at h; exact absurd h (by simp)
  | e :: rest =>
      rw [hs] at h
      simp only [Option.some.injEq, Prod.mk.injEq] at h
      obtain ⟨hrsz, hfs1⟩ := h
      subst hfs1
      exact ⟨e, rfl, hrsz.symm, rfl, rfl, rfl⟩

theorem FInv_pop {σ : Type} {sz : σ → Nat} {fs fs1 : FilterStorage σ} {rsz : Nat}
    (h : fs.pop_oldest sz = some (rsz, fs1)) (hI : FInv sz fs) :
    FInv sz fs1 ∧ fs1.current_size_bytes + rsz = fs.current_size_bytes ∧
      fs1.max_kept_entries = fs.max_kept_entries ∧ fs1.next_seq = fs.next_seq ∧
      fs1.spots.length + 1 = fs.spots.length := by
  obtain ⟨e, hcons, hrsz, hcur, hmax, hnext⟩ := pop_oldest_spec h
  obtain ⟨hc, hcap1, hlen, hns, hlast⟩ := hI
  have hcsum : fs.current_size_bytes = sz e.2 + (fs1.spots.map (fun e => sz e.2)).sum := by
    rw [hc, hcons]
    simp
  have hlen1 : fs1.spots.length + 1 = fs.spots.length := by rw [hcons]; simp
  have hcur1 : fs1.current_size_bytes + rsz = fs.current_size_bytes := by
    rw [hcur, hrsz]
    omega
  refine ⟨⟨?_, ?_, ?_, ?_, ?_⟩, hcur1, hmax, hnext, hlen1⟩
  · rw [hcur]; omega
  · rw [hmax]; exact hcap1
  · rw [hmax]; omega
  · rw [hnext]; exact hns
  · intro hne
    obtain ⟨b, l, hbl⟩ : ∃ b l, fs1.spots = b :: l := by
      match fs1.spots, hne with
      | b :: l, _ => exact ⟨b, l, rfl⟩
    obtain ⟨e2, he2, hseq, hpos⟩ := hlast (by rw [hcons]; simp)
    refine ⟨e2, ?_, by rw [hnext]; exact hseq, hpos⟩
    rw [hcons, hbl] at he2
    rw [hbl]
    rw [List.getLast?_cons_cons] at he2
    exact he2

theorem evict_from_largest_inv {σ : Type} {sz : σ → Nat} {st st1 : SpotStorage σ}
    (h : evict_from_largest sz st = some st1) (hInv : Inv sz st) :
    Inv sz st1 ∧ st1.global_max_size = st.global_max_size ∧
      st1.filters.length = st.filters.length := by
  unfold evict_from_largest at h
  split at h
  · exact absurd h (by simp)
  next idx hidx =>
  split at h
  · exact absurd h (by simp)
  next fs hget =>
  split at h
  · exact absurd h (by simp)
  next rsz fs1 hpop =>
  simp only [Option.some.injEq] at h
  subst h
  obtain ⟨hFall, hsum, hbud⟩ := hInv
  have hmem : fs ∈ st.filters := List.get?_mem hget
  obtain ⟨hFI1, hcur1, hmax1, hnext1, hlen1⟩ := FInv_pop hpop (hFall fs hmem)
  have hms := map_sum_set (fun fs => fs.current_size_bytes) st.filters idx fs fs1 hget
  dsimp only at hms
  have hfsle : fs.current_size_bytes ≤
      (st.filters.map (fun fs => fs.current_size_bytes)).sum :=
    List.single_le_sum (fun x _ => Nat.zero_le x) _
      (List.mem_map_of_mem (fun fs => fs.current_size_bytes) hmem)
  refine ⟨⟨?_, ?_, ?_⟩, rfl, by simp⟩
  · intro g hg
    rcases List.mem_or_eq_of_mem_set hg with hg | hg
    · exact hFall g hg
    · subst hg; exact hFI1
  · dsimp only
    omega
  · dsimp only
    omega

theorem global_evict_loop_spec {σ : Type} (sz : σ → Nat) (S : Nat) :
    ∀ (n : Nat) (st : SpotStorage σ), entry_count st ≤ n → Inv sz st →
      Inv sz (global_evict_loop sz S st).1 ∧
      (global_evict_loop sz S st).1.global_max_size = st.global_max_size ∧
      (global_evict_loop sz S st).1.filters.length = st.filters.length ∧
      ((global_evict_loop sz S st).2 = true →
        (global_evict_loop sz S st).1.total_size_bytes + S ≤ st.global_max_size) := by
  intro n
  induction n with
  | zero =>
      intro st hn hInv
      unfold global_evict_loop
      split
      · next hover =>
          split
          · next heq =>
              exact ⟨hInv, rfl, rfl, fun hf => absurd hf (by simp)⟩
          · next st1 heq =>
              have := evict_entry_count heq
              omega
      · next hok =>
          exact ⟨hInv, rfl, rfl, fun _ => by dsimp only; omega⟩
  | succ n ih =>
      intro st hn hInv
      unfold global_evict_loop
      split
      · next hover =>
          split
          · next heq =>
              exact ⟨hInv, rfl, rfl, fun hf => absurd hf (by simp)⟩
          · next st1 heq =>
              obtain ⟨hI1, hG1, hL1⟩ := evict_from_largest_inv heq hInv
              have hcnt := evict_entry_count heq
              have hrec := ih { st1 with global_evictions := st1.global_evictions + 1 }
                (by simp only [entry_count] at *; omega) hI1
              refine ⟨hrec.1, ?_, ?_, ?_⟩
              · rw [hrec.2.1]; dsimp only; exact hG1
              · rw [hrec.2.2.1]; dsimp only; exact hL1
              · intro ht
                have hb := hrec.2.2.2 ht
                dsimp only at hb
                omega
      · next hok =>
          exact ⟨hInv, rfl, rfl, fun _ => by dsimp only; omega⟩

theorem per_filter_evict_spec {σ : Type} (sz : σ → Nat) :
    ∀ (n : Nat) (fs : FilterStorage σ), fs.spots.length ≤ n → FInv sz fs →
      FInv sz (per_filter_evict sz fs).1 ∧
      (per_filter_evict sz fs).1.spots.length < fs.max_kept_entries ∧
      (per_filter_evict sz fs).1.max_kept_entries = fs.max_kept_entries ∧
      (per_filter_evict sz fs).1.next_seq = fs.next_seq ∧
      (per_filter_evict sz fs).1.current_size_bytes + (per_filter_evict sz fs).2
        = fs.current_size_bytes := by
  intro n
  induction n with
  | zero =>
      intro fs hn hI
      unfold per_filter_evict
      split
      · next hge =>
          obtain ⟨hc, hcap1, hlen, hns, hlast⟩ := hI
          omega
      · next hlt =>
          exact ⟨hI, by dsimp only; omega, rfl, rfl, by dsimp only; omega⟩
  | succ n ih =>
      intro fs hn hI
      unfold per_filter_evict
      split
      · next hge =>
          split
          · next heq =>
              obtain ⟨hc, hcap1, hlen, hns, hlast⟩ := hI
              obtain ⟨e, r, hcons⟩ : ∃ e r, fs.spots = e :: r := by
                match hs : fs.spots, hge with
                | e :: r, _ => exact ⟨e, r, rfl⟩
                | [], hge2 =>
                    simp only [List.length_nil] at hge2
                    exact absurd hge2 (by omega)
              unfold FilterStorage.pop_oldest at heq
              rw [hcons] at heq
              exact absurd heq (by simp)
          · next rsz fs1 heq =>
              obtain ⟨hFI1, hcur1, hmax1, hnext1, hlen1⟩ := FInv_pop heq hI
              have hrec := ih fs1 (by omega) hFI1
              refine ⟨hrec.1, ?_, ?_, ?_, ?_⟩
              · rw [← hmax1]; exact hrec.2.1
              · rw [hrec.2.2.1]; exact hmax1
              · rw [hrec.2.2.2.1]; exact hnext1
              · dsimp only
                have := hrec.2.2.2.2
                omega
      · next hlt =>
          exact ⟨hI, by dsimp only; omega, rfl, rfl, by dsimp only; omega⟩

theorem store_spot_inv {σ : Type} {sz : σ → Nat} {st : SpotStorage σ} (i : Nat) (spot : σ)
    (hInv : Inv sz st) : Inv sz (store_spot sz st i spot) ∧
      (store_spot sz st i spot).global_max_size = st.global_max_size ∧
      (store_spot sz st i spot).filters.length = st.filters.length := by
  unfold store_spot
  obtain ⟨hI1, hG1, hL1, hT1⟩ :=
    global_evict_loop_spec sz (sz spot) (entry_count st) st le_rfl hInv
  split
  · next st1 heq =>
      rw [heq] at hI1 hG1 hL1
      exact ⟨hI1, hG1, hL1⟩
  · next st1 heq =>
      rw [heq] at hI1 hG1 hL1 hT1
      have hbud := hT1 rfl
      split
      · exact ⟨hI1, hG1, hL1⟩
      · next fs hget =>
          have hmem : fs ∈ st1.filters := List.get?_mem hget
          have hFI := hI1.1 fs hmem
          have hcap1 : 1 ≤ fs.max_kept_entries := hFI.2.1
          obtain ⟨hpI, hplen, hpmax, hpnext, hpcur⟩ :=
            per_filter_evict_spec sz fs.spots.length fs le_rfl hFI
          have hfsle : fs.current_size_bytes ≤
              (st1.filters.map (fun fs => fs.current_size_bytes)).sum :=
            List.single_le_sum (fun x _ => Nat.zero_le x) _
              (List.mem_map_of_mem (fun fs => fs.current_size_bytes) hmem)
          have hms := map_sum_set (fun fs => fs.current_size_bytes) st1.filters i fs
            ((per_filter_evict sz fs).1.push sz spot) hget
          dsimp only at hms
          have hpushI : FInv sz ((per_filter_evict sz fs).1.push sz spot) := by
            obtain ⟨hc, hk1, hkl, hn1, _⟩ := hpI
            unfold FilterStorage.push
            refine ⟨?_, ?_, ?_, ?_, ?_⟩
            · dsimp only
              rw [hc]
              simp
            · dsimp only
              exact hk1
            · dsimp only
              simp only [List.length_append, List.length_cons, List.length_nil]
              omega
            · dsimp only
              omega
            · intro hne
              refine ⟨((per_filter_evict sz fs).1.next_seq, spot), ?_, rfl, hn1⟩
              dsimp only
              exact List.getLast?_concat _
          refine ⟨⟨?_, ?_, ?_⟩, hG1, by simpa using hL1⟩
          · intro g hg
            rcases List.mem_or_eq_of_mem_set hg with hg | hg
            · exact hI1.1 g hg
            · subst hg; exact hpushI
          · have hI2 : (st1.filters.map (fun fs => fs.current_size_bytes)).sum
                = st1.total_size_bytes := hI1.2.1
            have hbud2 : st1.total_size_bytes + sz spot ≤ st.global_max_size := hbud
            unfold FilterStorage.push at hms ⊢
            dsimp only at hms ⊢
            omega
          · have hI2 : (st1.filters.map (fun fs => fs.current_size_bytes)).sum
                = st1.total_size_bytes := hI1.2.1
            have hbud2 : st1.total_size_bytes + sz spot ≤ st.global_max_size := hbud
            have hG2 : st1.global_max_size = st.global_max_size := hG1
            unfold FilterStorage.push at hms ⊢
            dsimp only at hms ⊢
            omega

theorem mk_storage_inv {σ : Type} (sz : σ → Nat) (G : Nat) (caps : List Nat)
    (hcaps : ∀ c ∈ caps, 1 ≤ c) : Inv sz (mk_storage (σ := σ) G caps) := by
  refine ⟨?_, ?_, ?_⟩
  · intro fs hfs
    obtain ⟨c, hc, hfsc⟩ := List.mem_map.mp hfs
    subst hfsc
    exact ⟨rfl, hcaps c hc, Nat.zero_le _, le_refl 1, fun h => absurd rfl h⟩
  · unfold mk_storage
    dsimp only
    refine List.sum_eq_zero ?_
    intro x hx
    obtain ⟨fs, hfs, hfx⟩ := List.mem_map.mp hx
    obtain ⟨c, hc, hcf⟩ := List.mem_map.mp hfs
    subst hcf
    rw [← hfx]
  · unfold mk_storage
    dsimp only
    exact Nat.zero_le _

theorem run_stores_inv {σ : Type} (sz : σ → Nat) :
    ∀ (ops : List (Nat × σ)) (st : SpotStorage σ),
      Inv sz st → Inv sz (run_stores sz st ops)
  | [], st, h => h
  | op :: t, st, h => by
      unfold run_stores
      simp only [List.foldl_cons]
      exact run_stores_inv sz t (store_spot sz st op.1 op.2) (store_spot_inv op.1 op.2 h).1

/-- C1: starting from a fresh storage whose effective caps are all at
least 1, after any sequence of sequential `store_spot` calls every
queue holds at most its cap, the per-queue `current_size_bytes` sum to
`total_size_bytes`, and the total stays within `global_max_size` (the
statement quantifies over all operation sequences, hence holds after
every intermediate store as well). -/
theorem C1_storage_bounds {σ : Type} (sz : σ → Nat) (G : Nat) (caps : List Nat)
    (hcaps : ∀ c ∈ caps, 1 ≤ c) (ops : List (Nat × σ)) :
    (∀ fs ∈ (run_stores sz (mk_storage G caps) ops).filters,
        fs.len ≤ fs.max_kept_entries) ∧
    ((run_stores sz (mk_storage G caps) ops).filters.map
        (fun fs => fs.current_size_bytes)).sum
      = (run_stores sz (mk_storage G caps) ops).total_size_bytes ∧
    (run_stores sz (mk_storage G caps) ops).total_size_bytes
      ≤ (run_stores sz (mk_storage G caps) ops).global_max_size := by
  have h := run_stores_inv sz ops (mk_storage G caps) (mk_storage_inv sz G caps hcaps)
  exact ⟨fun fs hfs => (h.1 fs hfs).2.2.1, h.2.1, h.2.2⟩

/-- C1 witness: a two-store run against a filter of cap 1 and a global
budget of 3 bytes. -/
theorem C1_storage_bounds_witness :
    (∀ fs ∈ (run_stores (fun _ => (2:Nat)) (mk_storage 3 [1, 1])
        [(0, ()), (1, ())]).filters, fs.len ≤ fs.max_kept_entries) ∧
    ((run_stores (fun _ => (2:Nat)) (mk_storage 3 [1, 1])
        [(0, ()), (1, ())]).filters.map (fun fs => fs.current_size_bytes)).sum
      = (run_stores (fun _ => (2:Nat)) (mk_storage 3 [1, 1])
        [(0, ()), (1, ())]).total_size_bytes ∧
    (run_stores (fun _ => (2:Nat)) (mk_storage 3 [1, 1])
        [(0, ()), (1, ())]).total_size_bytes
      ≤ (run_stores (fun _ => (2:Nat)) (mk_storage 3 [1, 1])
        [(0, ()), (1, ())]).global_max_size :=
  C1_storage_bounds (fun _ => 2) 3 [1, 1] (by decide) [(0, ()), (1, ())]

/-- C5 (amended): after any sequence of sequential stores from a fresh
storage with caps at least 1, a currently nonempty queue has
`latest_seq` equal to the last assigned sequence number (`next_seq - 1`,
the seq of its most recently enqueued entry, and nonzero); an empty
queue reports `latest_seq = 0` even when entries were enqueued and
later evicted. -/
theorem C5_latest_seq (σ : Type) (sz : σ → Nat) (G : Nat) (caps : List Nat)
    (hcaps : ∀ c ∈ caps, 1 ≤ c) (ops : List (Nat × σ)) (fs : FilterStorage σ)
    (hfs : fs ∈ (run_stores sz (mk_storage G caps) ops).filters) :
    (fs.spots ≠ [] → fs.latest_seq + 1 = fs.next_seq ∧ 1 ≤ fs.latest_seq) ∧
    (fs.spots = [] → fs.latest_seq = 0) := by
  have h := run_stores_inv sz ops (mk_storage G caps) (mk_storage_inv sz G caps hcaps)
  have hFI := h.1 fs hfs
  constructor
  · intro hne
    obtain ⟨e, hlast, hseq, hpos⟩ := hFI.2.2.2.2 hne
    unfold FilterStorage.latest_seq
    rw [hlast]
    exact ⟨hseq, hpos⟩
  · intro hemp
    unfold FilterStorage.latest_seq
    rw [hemp]
    rfl

/-- The two-store run that drains queue 0 through a global eviction:
the final storage state, computed from the embedded loops. -/
theorem c5run_eval :
    run_stores (fun _ => (2:Nat)) (mk_storage 3 [1, 1]) [(0, ()), (1, ())]
      = ⟨3, [⟨1, [], 2, 1, 0⟩, ⟨1, [(1, ())], 2, 0, 2⟩], 2, 1⟩ := by
  have hl1 : global_evict_loop (fun _ => (2:Nat)) 2 (mk_storage 3 [1, 1] : SpotStorage Unit)
      = (mk_storage 3 [1, 1], true) := by
    rw [global_evict_loop]
    norm_num [mk_storage]
  have hp : per_filter_evict (fun _ => (2:Nat)) (⟨1, [], 1, 0, 0⟩ : FilterStorage Unit)
      = (⟨1, [], 1, 0, 0⟩, 0) := by
    rw [per_filter_evict]
    norm_num
  have hA : store_spot (fun _ => (2:Nat)) (mk_storage 3 [1, 1]) 0 ()
      = (⟨3, [⟨1, [(1, ())], 2, 0, 2⟩, ⟨1, [], 1, 0, 0⟩], 2, 0⟩ : SpotStorage Unit) := by
    unfold store_spot
    rw [hl1]
    simp only [mk_storage, List.map, List.get?, hp, FilterStorage.push]
    rfl
  have hev : evict_from_largest (fun _ => (2:Nat))
      (⟨3, [⟨1, [(1, ())], 2, 0, 2⟩, ⟨1, [], 1, 0, 0⟩], 2, 0⟩ : SpotStorage Unit)
      = some ⟨3, [⟨1, [], 2, 1, 0⟩, ⟨1, [], 1, 0, 0⟩], 0, 0⟩ := by
    rfl
  have hl2 : global_evict_loop (fun _ => (2:Nat)) 2
      (⟨3, [⟨1, [], 2, 1, 0⟩, ⟨1, [], 1, 0, 0⟩], 0, 1⟩ : SpotStorage Unit)
      = (⟨3, [⟨1, [], 2, 1, 0⟩, ⟨1, [], 1, 0, 0⟩], 0, 1⟩, true) := by
    rw [global_evict_loop]
    norm_num
  have hl3 : global_evict_loop (fun _ => (2:Nat)) 2
      (⟨3, [⟨1, [(1, ())], 2, 0, 2⟩, ⟨1, [], 1, 0, 0⟩], 2, 0⟩ : SpotStorage Unit)
      = (⟨3, [⟨1, [], 2, 1, 0⟩, ⟨1, [], 1, 0, 0⟩], 0, 1⟩, true) := by
    rw [global_evict_loop]
    rw [if_pos (by norm_num)]
    split
    · next heq =>
        rw [hev] at heq
        exact absurd heq (by simp)
    · next st1 heq =>
        rw [hev] at heq
        injection heq with h1
        subst h1
        exact hl2
  have hB : store_spot (fun _ => (2:Nat))
      (⟨3, [⟨1, [(1, ())], 2, 0, 2⟩, ⟨1, [], 1, 0, 0⟩], 2, 0⟩ : SpotStorage Unit) 1 ()
      = (⟨3, [⟨1, [], 2, 1, 0⟩, ⟨1, [(1, ())], 2, 0, 2⟩], 2, 1⟩ : SpotStorage Unit) := by
    unfold store_spot
    rw [hl3]
    simp only [List.get?, hp, FilterStorage.push]
    rfl
  show store_spot (fun _ => (2:Nat))
      (store_spot (fun _ => (2:Nat)) (mk_storage 3 [1, 1]) 0 ()) 1 ()
    = _
  rw [hA, hB]


/-- C5 counterexample: queue 0 received an enqueue (seq 1 was assigned,
`next_seq = 2`) but was drained by a global eviction, so `latest_seq`
is 0 rather than the seq of its most recently enqueued entry. -/
theorem C5_latest_seq_counterexample :
    ∃ fs : FilterStorage Unit,
      (run_stores (fun _ => (2:Nat)) (mk_storage 3 [1, 1])
          [(0, ()), (1, ())]).filters.get? 0 = some fs
        ∧ fs.next_seq = 2 ∧ fs.latest_seq = 0 := by
  refine ⟨⟨1, [], 2, 1, 0⟩, ?_, rfl, rfl⟩
  rw [c5run_eval]
  rfl

/-- C5 witness: queue 1 of the same run is nonempty and its
`latest_seq` is the last assigned seq. -/
theorem C5_latest_seq_witness :
    ((⟨1, [(1, ())], 2, 0, 2⟩ : FilterStorage Unit).spots ≠ [] →
        (⟨1, [(1, ())], 2, 0, 2⟩ : FilterStorage Unit).latest_seq + 1
            = (⟨1, [(1, ())], 2, 0, 2⟩ : FilterStorage Unit).next_seq ∧
          1 ≤ (⟨1, [(1, ())], 2, 0, 2⟩ : FilterStorage Unit).latest_seq) ∧
    ((⟨1, [(1, ())], 2, 0, 2⟩ : FilterStorage Unit).spots = [] →
        (⟨1, [(1, ())], 2, 0, 2⟩ : FilterStorage Unit).latest_seq = 0) :=
  C5_latest_seq Unit (fun _ => 2) 3 [1, 1] (by decide) [(0, ()), (1, ())]
    ⟨1, [(1, ())], 2, 0, 2⟩ (by rw [c5run_eval]; simp)

end RBN

